import Mathlib

/-!
Verification of the Pathfinder-Visualizer core (graph.js, algorithms.js, app.js).

The JavaScript source is shallowly embedded:
* JS `Map` objects become insertion-ordered association lists (`mapGet`/`mapSet`);
  `Map.set` updates an existing key in place and appends a fresh key at the end,
  exactly like the JS semantics.
* JS `Set` objects become duplicate-free lists in insertion order; `new Set(array)`
  is `jsSet` (first-occurrence deduplication).
* Node coordinates and explicitly provided weights are JS numbers, modelled as `ℚ`;
  `Math.hypot` is the real square root (`hypot`), `Math.round` is Mathlib's `round`
  (both round halves up, `⌊x + 1/2⌋`).  Stored edge weights are integers (`ℤ`)
  because `Math.round` is always applied.
* The generator functions become fuel-indexed loops producing the list of yielded
  events; the canonical fuel is proven sufficient where a claim needs termination.
-/

set_option maxHeartbeats 1000000

namespace Pathfinder

abbrev NodeId := String

/-- Lookup in an insertion-ordered association list (JS `Map.get`). -/
def mapGet {α : Type} : List (NodeId × α) → NodeId → Option α
  | [], _ => none
  | (k', v) :: t, k => if k' = k then some v else mapGet t k

/-- Update/insert in an insertion-ordered association list (JS `Map.set`):
an existing key keeps its position, a fresh key is appended at the end. -/
def mapSet {α : Type} : List (NodeId × α) → NodeId → α → List (NodeId × α)
  | [], k, v => [(k, v)]
  | (k', v') :: t, k, v => if k' = k then (k, v) :: t else (k', v') :: mapSet t k v

/-- JS `new Set(array)`: keep the first occurrence of each element, in order. -/
def jsSet (l : List NodeId) : List NodeId :=
  l.foldl (fun acc a => if acc.contains a then acc else acc ++ [a]) []

-- ============ graph.js ============

/-- A node record, `{ id, x, y, label, type }` in graph.js. -/
structure NodeData where
  id : NodeId
  x : ℚ
  y : ℚ
  label : String
  ty : String
deriving DecidableEq

/-- An adjacency entry, `{ node, weight }` in graph.js. -/
structure Adj where
  node : NodeId
  weight : ℤ
deriving DecidableEq

/-- The Graph class: `nodes : Map id → data`, `edges : Map id → adjacency list`. -/
structure Graph where
  nodes : List (NodeId × NodeData)
  edges : List (NodeId × List Adj)
deriving DecidableEq

def Graph.empty : Graph := ⟨[], []⟩

/-- Graph.addNode: `nodes.set(id, {...})`; `if (!edges.has(id)) edges.set(id, [])`. -/
def Graph.addNode (g : Graph) (id : NodeId) (x y : ℚ) (label ty : String) : Graph :=
  { nodes := mapSet g.nodes id ⟨id, x, y, label, ty⟩
    edges := if (mapGet g.edges id).isSome then g.edges else mapSet g.edges id [] }

/-- Math.hypot of two (rational-valued) JS numbers. -/
noncomputable def hypot (dx dy : ℚ) : ℝ := Real.sqrt ((dx : ℝ) ^ 2 + (dy : ℝ) ^ 2)

/-- Append an entry to the adjacency list stored under `k`
(JS `edges.get(k).push(e)`; every node added by addNode has such a list). -/
def adjPush (edges : List (NodeId × List Adj)) (k : NodeId) (e : Adj) :
    List (NodeId × List Adj) :=
  edges.map fun p => if p.1 = k then (p.1, p.2 ++ [e]) else p

/-- Graph.addEdge: fails (JS `throw`) when an endpoint is missing from `nodes`;
a missing weight defaults to the Euclidean distance between the endpoints; the
resolved weight is always passed through `Math.round`; the rounded weight is
pushed on both adjacency lists. -/
noncomputable def Graph.addEdge (g : Graph) (fromId toId : NodeId) (w : Option ℚ) :
    Option Graph :=
  match mapGet g.nodes fromId, mapGet g.nodes toId with
  | some a, some b =>
      let wr : ℝ :=
        match w with
        | none => hypot (b.x - a.x) (b.y - a.y)
        | some q => (q : ℝ)
      let weight : ℤ := round wr
      some { g with
              edges := adjPush (adjPush g.edges fromId ⟨toId, weight⟩) toId ⟨fromId, weight⟩ }
  | _, _ => none

/-- Graph.getNeighbors: `edges.get(id) || []`. -/
def Graph.getNeighbors (g : Graph) (id : NodeId) : List Adj :=
  (mapGet g.edges id).getD []

/-- Graph.getNode. -/
def Graph.getNode (g : Graph) (id : NodeId) : Option NodeData :=
  mapGet g.nodes id

/-- Graph.getAllNodes: `Array.from(nodes.values())`. -/
def Graph.getAllNodes (g : Graph) : List NodeData :=
  g.nodes.map (·.2)

/-- Graph.heuristic: Euclidean distance between the two nodes' coordinates.
The JS code dereferences `nodes.get(a)` and `nodes.get(b)` without a check and
throws a TypeError when either is absent; that failure is modelled by `none`. -/
noncomputable def Graph.heuristic (g : Graph) (a b : NodeId) : Option ℝ :=
  match mapGet g.nodes a, mapGet g.nodes b with
  | some na, some nb => some (hypot (nb.x - na.x) (nb.y - na.y))
  | _, _ => none

-- ============ algorithms.js : MinHeap ============

/-- A heap entry `{ priority, node }`.  Dijkstra uses integer priorities,
A* uses real-valued priorities, so the priority type is a parameter. -/
structure Entry (P : Type) (V : Type) where
  priority : P
  node : V
deriving DecidableEq

/-- Priority at an index, if in range. -/
def priAt {P V : Type} (data : List (Entry P V)) (k : ℕ) : Option P :=
  (data[k]?).map (·.priority)

/-- Strict comparison of two optional priorities; `none` compares false,
matching the JS short-circuit `i < n && data[i].priority < data[j].priority`. -/
def optLt {P : Type} [LinearOrder P] : Option P → Option P → Bool
  | some a, some b => decide (a < b)
  | _, _ => false

/-- Swap two positions of a list (the JS destructuring swap). -/
def lswap {α : Type} (data : List α) (i j : ℕ) : List α :=
  match data[i]?, data[j]? with
  | some a, some b => (data.set i b).set j a
  | _, _ => data

/-- MinHeap._bubbleUp. -/
def bubbleUp {P V : Type} [LinearOrder P] (data : List (Entry P V)) (i : ℕ) :
    List (Entry P V) :=
  if h : 0 < i then
    let parent := (i - 1) / 2
    if optLt (priAt data i) (priAt data parent) then
      bubbleUp (lswap data i parent) parent
    else data
  else data
termination_by i
decreasing_by
  exact Nat.lt_of_le_of_lt (Nat.div_le_self _ _) (Nat.pred_lt (Nat.pos_iff_ne_zero.mp h))

theorem lswap_length {α : Type} (data : List α) (i j : ℕ) :
    (lswap data i j).length = data.length := by
  unfold lswap
  cases hi : data[i]? <;> cases hj : data[j]? <;> simp

/-- Index of the smallest element among `i` and its two children (the body of
the JS `_sinkDown` loop that computes `smallest`). -/
def sinkCandidate {P V : Type} [LinearOrder P] (data : List (Entry P V)) (i : ℕ) : ℕ :=
  let n := data.length
  let s1 := if 2 * i + 1 < n ∧ optLt (priAt data (2 * i + 1)) (priAt data i) then 2 * i + 1 else i
  if 2 * i + 2 < n ∧ optLt (priAt data (2 * i + 2)) (priAt data s1) then 2 * i + 2 else s1

theorem sinkCandidate_ge {P V : Type} [LinearOrder P] (data : List (Entry P V)) (i : ℕ) :
    i ≤ sinkCandidate data i := by
  unfold sinkCandidate
  dsimp only
  split_ifs <;> omega

theorem sinkCandidate_lt_length {P V : Type} [LinearOrder P] (data : List (Entry P V)) (i : ℕ)
    (h : sinkCandidate data i ≠ i) : sinkCandidate data i < data.length := by
  unfold sinkCandidate at h ⊢
  dsimp only at h ⊢
  split_ifs at h ⊢ <;> omega

/-- MinHeap._sinkDown. -/
def sinkDown {P V : Type} [LinearOrder P] (data : List (Entry P V)) (i : ℕ) :
    List (Entry P V) :=
  let s := sinkCandidate data i
  if h : s ≠ i then sinkDown (lswap data i s) s else data
termination_by data.length - i
decreasing_by
  rw [lswap_length]
  have h1 := sinkCandidate_ge data i
  have h2 := sinkCandidate_lt_length data i h
  omega

/-- MinHeap.push. -/
def MinHeap.push {P V : Type} [LinearOrder P] (data : List (Entry P V)) (item : Entry P V) :
    List (Entry P V) :=
  bubbleUp (data ++ [item]) data.length

/-- MinHeap.pop: return `data[0]`; move the last element to the root and sink it.
Returns `none` on the empty heap (the JS code would return `undefined`). -/
def MinHeap.pop {P V : Type} [LinearOrder P] (data : List (Entry P V)) :
    Option (Entry P V × List (Entry P V)) :=
  match data with
  | [] => none
  | [a] => some (a, [])
  | a :: b :: t =>
      let last := (b :: t).getLast (List.cons_ne_nil _ _)
      let rest := (a :: b :: t).dropLast
      some (a, sinkDown (rest.set 0 last) 0)

-- ============ algorithms.js : event traces ============

/-- Events yielded by bfs/dfs: `{type:'visit', node, visited, frontier}` and
`{type:'done', path, visited}`. -/
inductive BEvent where
  | visit (node : NodeId) (visited : List NodeId) (frontier : List NodeId)
  | done (path : List NodeId) (visited : List NodeId)
deriving DecidableEq

/-- Events yielded by dijkstra: the visit event carries a snapshot of the
distance map, the done event carries `totalDistance` (`⊤` models `Infinity`). -/
inductive DEvent where
  | visit (node : NodeId) (visited : List NodeId) (distances : List (NodeId × WithTop ℤ))
  | done (path : List NodeId) (visited : List NodeId) (totalDistance : WithTop ℤ)
deriving DecidableEq

/-- Events yielded by aStar; gScore values are real-valued. -/
inductive AEvent where
  | visit (node : NodeId) (visited : List NodeId) (distances : List (NodeId × WithTop ℝ))
  | done (path : List NodeId) (visited : List NodeId) (totalDistance : WithTop ℝ)

/-- The walk of reconstructPath: follow parents until the `null` root marker.
The JS loop runs `while (current !== null)`; every node it is called on has a
parent entry whose chain ends at the start node, and any chain of distinct keys
is shorter than the map, so fuel `parent.length + 1` reproduces the loop.  (On a
key missing from the map the JS loop would never terminate; that case is
unreachable and the model stops there.) -/
def reconstructGo (parent : List (NodeId × Option NodeId)) : ℕ → NodeId → List NodeId
  | 0, _ => []
  | n + 1, c =>
    match mapGet parent c with
    | some (some p) => reconstructGo parent n p ++ [c]
    | some none => [c]
    | none => [c]

/-- reconstructPath in algorithms.js. -/
def reconstructPath (parent : List (NodeId × Option NodeId)) (endId : NodeId) : List NodeId :=
  reconstructGo parent (parent.length + 1) endId

/-- All node ids that occur as adjacency targets. -/
def adjTargets (g : Graph) : List NodeId :=
  ((g.edges.map (·.2)).flatten).map (·.node)

/-- All node ids a search started at `s` can ever enqueue (used only to bound
the fuel of the loops). -/
def searchUniv (g : Graph) (s : NodeId) : List NodeId :=
  (s :: adjTargets g).dedup

/-- Total number of adjacency entries in the graph. -/
def totalAdjLen (g : Graph) : ℕ :=
  (g.edges.map (·.2.length)).sum

-- ============ bfs ============

structure BfsState where
  visited : List NodeId
  parent : List (NodeId × Option NodeId)
  queue : List NodeId
deriving DecidableEq

/-- The neighbor loop of bfs: enqueue unvisited neighbors, marking them visited
and recording their parent. -/
def bfsExpand (current : NodeId) (st : BfsState) (ns : List Adj) : BfsState :=
  ns.foldl
    (fun st a =>
      if st.visited.contains a.node then st
      else
        { visited := st.visited ++ [a.node]
          parent := mapSet st.parent a.node (some current)
          queue := st.queue ++ [a.node] })
    st

/-- The while-loop of bfs, driven by fuel (the canonical fuel in `bfs` is proven
sufficient; running out of fuel truncates the trace). -/
def bfsLoop (g : Graph) (endId : NodeId) : ℕ → BfsState → List BEvent
  | 0, _ => []
  | fuel + 1, st =>
    match st.queue with
    | [] => [.done [] st.visited]
    | current :: rest =>
        let ev := BEvent.visit current st.visited (jsSet rest)
        if current = endId then
          [ev, .done (reconstructPath st.parent endId) st.visited]
        else
          ev :: bfsLoop g endId fuel
            (bfsExpand current { st with queue := rest } (g.getNeighbors current))

/-- bfs in algorithms.js: the full yielded event sequence. -/
def bfs (g : Graph) (startId endId : NodeId) : List BEvent :=
  bfsLoop g endId ((searchUniv g startId).length + 1)
    ⟨[startId], mapSet [] startId none, [startId]⟩

-- ============ dfs ============

structure DfsState where
  visited : List NodeId
  parent : List (NodeId × Option NodeId)
  stack : List NodeId
deriving DecidableEq

/-- The neighbor loop of dfs: iterate the adjacency list in reverse; push every
neighbor that is not yet visited (the visited set does not change during this
loop), overwriting its parent.  Returns the new (parent, stack). -/
def dfsExpand (current : NodeId) (visited : List NodeId)
    (pr : List (NodeId × Option NodeId) × List NodeId) (ns : List Adj) :
    List (NodeId × Option NodeId) × List NodeId :=
  ns.reverse.foldl
    (fun pr a =>
      if visited.contains a.node then pr
      else (mapSet pr.1 a.node (some current), pr.2 ++ [a.node]))
    pr

/-- The while-loop of dfs.  The stack is kept in JS array order: the top is the
last element. -/
def dfsLoop (g : Graph) (endId : NodeId) : ℕ → DfsState → List BEvent
  | 0, _ => []
  | fuel + 1, st =>
    match st.stack with
    | [] => [.done [] st.visited]
    | a :: t =>
        let current := (a :: t).getLast (List.cons_ne_nil a t)
        let rest := (a :: t).dropLast
        if st.visited.contains current then
          dfsLoop g endId fuel { st with stack := rest }
        else
          let visited := st.visited ++ [current]
          let ev := BEvent.visit current visited (jsSet rest)
          if current = endId then
            [ev, .done (reconstructPath st.parent endId) visited]
          else
            let pr := dfsExpand current visited (st.parent, rest) (g.getNeighbors current)
            ev :: dfsLoop g endId fuel ⟨visited, pr.1, pr.2⟩

/-- Fuel sufficient for dfs (each iteration pops one entry; at most
`totalAdjLen g` entries are pushed per visited node). -/
def dfsFuel (g : Graph) (s : NodeId) : ℕ :=
  (searchUniv g s).length * (totalAdjLen g + 1) + 2

/-- dfs in algorithms.js: the full yielded event sequence.  Note that unlike
bfs, dfs starts with an empty visited set (nodes are marked on pop). -/
def dfs (g : Graph) (startId endId : NodeId) : List BEvent :=
  dfsLoop g endId (dfsFuel g startId) ⟨[], mapSet [] startId none, [startId]⟩

-- ============ dijkstra ============

structure DijState where
  dist : List (NodeId × WithTop ℤ)
  parent : List (NodeId × Option NodeId)
  visited : List NodeId
  heap : List (Entry ℤ NodeId)
deriving DecidableEq

/-- The relaxation loop of dijkstra.  A neighbor with no entry in the distance
map is never updated (in JS, `newDist < undefined` is false). -/
def dijRelax (current : NodeId) (currentDist : ℤ) (st : DijState) (ns : List Adj) : DijState :=
  ns.foldl
    (fun st a =>
      if st.visited.contains a.node then st
      else
        let newDist := currentDist + a.weight
        match mapGet st.dist a.node with
        | none => st
        | some d =>
          if (newDist : WithTop ℤ) < d then
            { st with
                dist := mapSet st.dist a.node (newDist : WithTop ℤ)
                parent := mapSet st.parent a.node (some current)
                heap := MinHeap.push st.heap ⟨newDist, a.node⟩ }
          else st)
    st

/-- The while-loop of dijkstra.  On the found branch, `endId` always has a
distance entry (it was just popped from the heap), so the `getD ⊤` default is
never taken there; the exhaustion branch yields `Infinity` (modelled `⊤`). -/
def dijLoop (g : Graph) (endId : NodeId) : ℕ → DijState → List DEvent
  | 0, _ => []
  | fuel + 1, st =>
    match MinHeap.pop st.heap with
    | none => [.done [] st.visited ⊤]
    | some (top, rest) =>
        if st.visited.contains top.node then
          dijLoop g endId fuel { st with heap := rest }
        else
          let visited := st.visited ++ [top.node]
          let st1 := { st with visited := visited, heap := rest }
          let ev := DEvent.visit top.node visited st1.dist
          if top.node = endId then
            [ev, .done (reconstructPath st.parent endId) visited ((mapGet st.dist endId).getD ⊤)]
          else
            ev :: dijLoop g endId fuel (dijRelax top.node top.priority st1 (g.getNeighbors top.node))

/-- The initial distance map of dijkstra: every graph node to `Infinity`
(in insertion order), then the start node to 0. -/
def dijInitDist (g : Graph) (s : NodeId) : List (NodeId × WithTop ℤ) :=
  mapSet (g.getAllNodes.foldl (fun m nd => mapSet m nd.id (⊤ : WithTop ℤ)) []) s 0

/-- Fuel sufficient for dijkstra. -/
def dijFuel (g : Graph) (s : NodeId) : ℕ :=
  (searchUniv g s).length * (totalAdjLen g + 1) + 2

/-- dijkstra in algorithms.js: the full yielded event sequence. -/
def dijkstra (g : Graph) (startId endId : NodeId) : List DEvent :=
  dijLoop g endId (dijFuel g startId)
    ⟨dijInitDist g startId, mapSet [] startId none, [], MinHeap.push [] ⟨0, startId⟩⟩

-- ============ aStar ============

structure AStarState where
  gScore : List (NodeId × WithTop ℝ)
  fScore : List (NodeId × WithTop ℝ)
  parent : List (NodeId × Option NodeId)
  visited : List NodeId
  heap : List (Entry (WithTop ℝ) NodeId)

/-- The relaxation loop of aStar.  `none` signals the TypeError the JS code
throws when `heuristic` dereferences a node absent from the graph; the abort
discards the leg, so mutations made before the throw are unobservable. -/
noncomputable def aStarRelax (g : Graph) (endId current : NodeId) (st : AStarState)
    (ns : List Adj) : Option AStarState :=
  ns.foldl
    (fun ost a =>
      match ost with
      | none => none
      | some st =>
        if st.visited.contains a.node then some st
        else
          match mapGet st.gScore current with
          | none => some st
          | some gc =>
            let tentativeG := gc + ((a.weight : ℝ) : WithTop ℝ)
            match mapGet st.gScore a.node with
            | none => some st
            | some gn =>
              if tentativeG < gn then
                match g.heuristic a.node endId with
                | none => none
                | some h =>
                  some { st with
                          parent := mapSet st.parent a.node (some current)
                          gScore := mapSet st.gScore a.node tentativeG
                          fScore := mapSet st.fScore a.node (tentativeG + (h : WithTop ℝ))
                          heap := MinHeap.push st.heap ⟨tentativeG + (h : WithTop ℝ), a.node⟩ }
              else some st)
    (some st)

/-- The while-loop of aStar; the Bool is true when the loop aborted with a
TypeError. -/
noncomputable def aStarLoop (g : Graph) (endId : NodeId) : ℕ → AStarState → List AEvent × Bool
  | 0, _ => ([], false)
  | fuel + 1, st =>
    match MinHeap.pop st.heap with
    | none => ([.done [] st.visited ⊤], false)
    | some (top, rest) =>
        if st.visited.contains top.node then
          aStarLoop g endId fuel { st with heap := rest }
        else
          let visited := st.visited ++ [top.node]
          let st1 := { st with visited := visited, heap := rest }
          let ev := AEvent.visit top.node visited st1.gScore
          if top.node = endId then
            ([ev, .done (reconstructPath st.parent endId) visited ((mapGet st.gScore endId).getD ⊤)],
              false)
          else
            match aStarRelax g endId top.node st1 (g.getNeighbors top.node) with
            | none => ([ev], true)
            | some st2 =>
                let res := aStarLoop g endId fuel st2
                (ev :: res.1, res.2)

/-- The initial gScore/fScore maps of aStar: every graph node to `Infinity`. -/
noncomputable def aStarInit (g : Graph) : List (NodeId × WithTop ℝ) :=
  g.getAllNodes.foldl (fun m nd => mapSet m nd.id (⊤ : WithTop ℝ)) []

/-- Fuel sufficient for aStar. -/
def aStarFuel (g : Graph) (s : NodeId) : ℕ :=
  (searchUniv g s).length * (totalAdjLen g + 1) + 2

/-- aStar in algorithms.js: the yielded events plus a crash flag.  The first
heuristic call happens before the first yield, so an unknown start or end id
crashes the generator on its first `next()` with no event produced. -/
noncomputable def aStar (g : Graph) (startId endId : NodeId) : List AEvent × Bool :=
  match g.heuristic startId endId with
  | none => ([], true)
  | some h0 =>
      aStarLoop g endId (aStarFuel g startId)
        ⟨mapSet (aStarInit g) startId 0,
         mapSet (aStarInit g) startId (h0 : WithTop ℝ),
         mapSet [] startId none, [],
         MinHeap.push [] ⟨(h0 : WithTop ℝ), startId⟩⟩

-- ============ app.js : multi-leg orchestrator ============

/-- The algorithm registry keys (ALGORITHMS in algorithms.js). -/
inductive Algo where
  | bfs | dfs | dijkstra | astar
deriving DecidableEq

/-- What the orchestrator extracts from a finished leg: the done event's path
and totalDistance (absent for the unweighted algorithms) and the number of
visit events (each one increments the trip's totalVisited). -/
structure LegResult where
  path : List NodeId
  totalDistance : Option (WithTop ℝ)
  visitCount : ℕ

/-- Drive a bfs/dfs generator to its done event, counting visit events;
`none` if the trace ended without a done event (then the JS loop breaks). -/
def legOfB : List BEvent → ℕ → Option LegResult
  | [], _ => none
  | .visit _ _ _ :: t, k => legOfB t (k + 1)
  | .done p _ :: _, k => some ⟨p, none, k⟩

/-- Drive a dijkstra generator to its done event. -/
def legOfD : List DEvent → ℕ → Option LegResult
  | [], _ => none
  | .visit _ _ _ :: t, k => legOfD t (k + 1)
  | .done p _ d :: _, k => some ⟨p, some ((WithTop.map (fun z : ℤ => (z : ℝ))) d), k⟩

/-- Drive an aStar generator to its done event. -/
def legOfA : List AEvent → ℕ → Option LegResult
  | [], _ => none
  | .visit _ _ _ :: t, k => legOfA t (k + 1)
  | .done p _ d :: _, k => some ⟨p, some d, k⟩

/-- Run one leg with the selected algorithm (`algo.fn(graph, fromId, toId)`
driven to completion).  The error case is the aStar TypeError, which rejects
the promise inside `_run` and kills the whole trip. -/
noncomputable def runLeg (g : Graph) (a : Algo) (fromId toId : NodeId) :
    Except Unit (Option LegResult) :=
  match a with
  | .bfs => .ok (legOfB (bfs g fromId toId) 0)
  | .dfs => .ok (legOfB (dfs g fromId toId) 0)
  | .dijkstra => .ok (legOfD (dijkstra g fromId toId) 0)
  | .astar =>
      let r := aStar g fromId toId
      if r.2 then .error () else .ok (legOfA r.1 0)

/-- PathfinderApp._calcPathDist: sum the weights of the first matching
adjacency entry of each consecutive pair (missing edges contribute 0). -/
def calcPathDist (g : Graph) : List NodeId → ℤ
  | a :: b :: t =>
      (match (g.getNeighbors a).find? (fun n => n.node = b) with
       | some e => e.weight
       | none => 0) + calcPathDist g (b :: t)
  | _ => 0

/-- Trip-wide accumulators of `_run`. -/
structure TripAcc where
  totalVisited : ℕ
  totalDistance : WithTop ℝ
  segments : List (List NodeId)

/-- Outcome of `_run` (status strings and rendering are presentation and are
not modelled; the constructors capture which terminal branch was taken). -/
inductive TripOutcome where
  | noStart
  | noStops
  | duplicateStop (id : NodeId)
  | crashed
  | noPathForLeg (fromId toId : NodeId)
  | complete (acc : TripAcc)

/-- The per-leg distance: `legResult.totalDistance || this._calcPathDist(path)`.
JS `||` falls through on `undefined` and on `0`. -/
noncomputable def legDistance (g : Graph) (res : LegResult) : WithTop ℝ :=
  match res.totalDistance with
  | none => ((calcPathDist g res.path : ℝ) : WithTop ℝ)
  | some d => if d = 0 then ((calcPathDist g res.path : ℝ) : WithTop ℝ) else d

/-- The leg loop of `_run`: run one engine per consecutive route pair; on a
done event with an empty path, return `noPathForLeg` at once (the JS code
resets the run state and `return`s); if a generator is exhausted without a done
event the JS loop `break`s and falls through to the trip-complete epilogue. -/
noncomputable def runLegs (g : Graph) (a : Algo) (acc : TripAcc) : List NodeId → TripOutcome
  | fromId :: toId :: rest =>
      match runLeg g a fromId toId with
      | .error _ => .crashed
      | .ok none => .complete acc
      | .ok (some res) =>
          let acc1 := { acc with totalVisited := acc.totalVisited + res.visitCount }
          if res.path.length > 0 then
            runLegs g a
              { acc1 with
                  totalDistance := acc1.totalDistance + legDistance g res
                  segments := acc1.segments ++ [res.path] }
              (toId :: rest)
          else
            .noPathForLeg fromId toId
  | _ => .complete acc

/-- Leading validation of `_run`: `route[i] === route[i+1]` for some i. -/
def findConsecDup : List NodeId → Option NodeId
  | a :: b :: t => if a = b then some a else findConsecDup (b :: t)
  | _ => none

/-- PathfinderApp._run: validate, then run the legs in order.  Stops with an
empty `nodeId` are filtered out up front (`.filter(Boolean)`). -/
noncomputable def runTrip (g : Graph) (a : Algo) (startId : NodeId)
    (stopIdsRaw : List NodeId) : TripOutcome :=
  let stopIds := stopIdsRaw.filter (fun s => s ≠ "")
  if startId = "" then .noStart
  else if stopIds.length = 0 then .noStops
  else
    let route := startId :: stopIds
    match findConsecDup route with
    | some d => .duplicateStop d
    | none => runLegs g a ⟨0, 0, []⟩ route

-- ============ path relations (the specification side) ============

/-- A walk from `s` to the second index of cost `c` using `k` edges, where every
step uses an actual adjacency entry of the graph.  Multiple parallel edges are
distinguished by their entries, matching what dijkstra can relax. -/
inductive CostWalk (g : Graph) (s : NodeId) : NodeId → ℤ → ℕ → Prop where
  | refl : CostWalk g s s 0 0
  | snoc {u v : NodeId} {w c : ℤ} {k : ℕ} :
      CostWalk g s u c k → Adj.mk v w ∈ g.getNeighbors u → CostWalk g s v (c + w) (k + 1)

/-- Reachability: some walk of some cost exists. -/
def Reaches (g : Graph) (s e : NodeId) : Prop :=
  ∃ c k, CostWalk g s e c k

/-- One adjacency step, ignoring the weight. -/
def adjStep (g : Graph) (u v : NodeId) : Prop :=
  ∃ w, Adj.mk v w ∈ g.getNeighbors u

/-- A nonempty vertex list that is a path from `s` to `e` in the graph:
consecutive elements are adjacent.  A path with `p.length` vertices has
`p.length - 1` edges. -/
def IsEdgePath (g : Graph) (s e : NodeId) (p : List NodeId) : Prop :=
  p.head? = some s ∧ p.getLast? = some e ∧ p.Chain' (adjStep g)

/-- All adjacency entries of the graph have a non-negative weight. -/
def NonnegWeights (g : Graph) : Prop :=
  ∀ u : NodeId, ∀ a ∈ g.getNeighbors u, 0 ≤ a.weight

/-- Every adjacency target is a node of the graph (spec §3: every edge endpoint
references a present node; true of every graph built through addNode/addEdge). -/
def WellFormed (g : Graph) : Prop :=
  ∀ u : NodeId, ∀ a ∈ g.getNeighbors u, (mapGet g.nodes a.node).isSome

-- ============ association-list lemmas ============

theorem mapGet_mapSet_self {α : Type} (m : List (NodeId × α)) (k : NodeId) (v : α) :
    mapGet (mapSet m k v) k = some v := by
  induction m with
  | nil => simp [mapGet, mapSet]
  | cons p t ih =>
      obtain ⟨k', v'⟩ := p
      by_cases h : k' = k
      · subst h
        simp [mapGet, mapSet]
      · simp [mapGet, mapSet, h, ih]

theorem mapGet_mapSet_ne {α : Type} (m : List (NodeId × α)) {k j : NodeId} (h : j ≠ k) (v : α) :
    mapGet (mapSet m k v) j = mapGet m j := by
  induction m with
  | nil => simp [mapGet, mapSet, Ne.symm h]
  | cons p t ih =>
      obtain ⟨k', v'⟩ := p
      by_cases hk : k' = k
      · subst hk
        simp [mapGet, mapSet, Ne.symm h]
      · simp [mapGet, mapSet, hk, ih]

theorem mapGet_mapSet (m : List (NodeId × α)) (k j : NodeId) (v : α) :
    mapGet (mapSet m k v) j = if j = k then some v else mapGet m j := by
  by_cases h : j = k
  · subst h
    simp [mapGet_mapSet_self]
  · simp [h, mapGet_mapSet_ne m h v]

-- ============ C10 : addNode overwrite semantics ============

/-- C10.  Calling addNode with an id already present in the graph overwrites
that node's attributes and leaves every adjacency list unchanged: the stored
record under `id` becomes the new one, every other node record is untouched,
and `getNeighbors` is unchanged for every node (including `id`). -/
theorem addNode_overwrites_attrs_only (g : Graph) (id : NodeId) (x y : ℚ)
    (label ty : String) (h : (mapGet g.nodes id).isSome) :
    (g.addNode id x y label ty).getNode id = some ⟨id, x, y, label, ty⟩ ∧
    (∀ j, j ≠ id → (g.addNode id x y label ty).getNode j = g.getNode j) ∧
    (∀ j, (g.addNode id x y label ty).getNeighbors j = g.getNeighbors j) := by
  refine ⟨?_, ?_, ?_⟩
  · simp [Graph.addNode, Graph.getNode, mapGet_mapSet_self]
  · intro j hj
    simp [Graph.addNode, Graph.getNode, mapGet_mapSet_ne _ hj]
  · intro j
    simp only [Graph.addNode, Graph.getNeighbors]
    by_cases he : (mapGet g.edges id).isSome
    · rw [if_pos he]
    · rw [if_neg he]
      by_cases hj : j = id
      · subst hj
        rw [mapGet_mapSet_self]
        rw [Option.not_isSome_iff_eq_none] at he
        rw [he]
        rfl
      · rw [mapGet_mapSet_ne _ hj]

/-- Witness for C10 on a concrete graph where the id is already present. -/
theorem addNode_overwrites_attrs_only_witness :
    ((Graph.empty.addNode "a" 0 0 "old" "t").addNode "a" 1 2 "new" "u").getNode "a" =
      some ⟨"a", 1, 2, "new", "u"⟩ :=
  (addNode_overwrites_attrs_only (Graph.empty.addNode "a" 0 0 "old" "t") "a" 1 2 "new" "u"
    (by decide)).1

-- ============ C8 : determinism ============

/-- C8.  Every search is deterministic: the event sequence is a function of the
graph, the start id and the end id alone, for all four algorithms.  In this
embedding the algorithms are pure functions of `(graph, start, end)`, which is
faithful to the JS source: the generators consult only their own local state
and the graph, JS `Map`/`Set` iteration order is the (deterministic) insertion
order, and the heap's tie-breaking is a deterministic function of the push
sequence. -/
theorem searches_deterministic (g g' : Graph) (s s' e e' : NodeId)
    (hg : g = g') (hs : s = s') (he : e = e') :
    bfs g s e = bfs g' s' e' ∧
    dfs g s e = dfs g' s' e' ∧
    dijkstra g s e = dijkstra g' s' e' ∧
    aStar g s e = aStar g' s' e' := by
  subst hg hs he
  exact ⟨rfl, rfl, rfl, rfl⟩

/-- Witness for C8 at a concrete instance. -/
theorem searches_deterministic_witness :
    bfs Graph.empty "a" "b" = bfs Graph.empty "a" "b" :=
  (searches_deterministic Graph.empty Graph.empty "a" "a" "b" "b" rfl rfl rfl).1

-- ============ C5 : dfs push discipline ============

/-- Modelled from the spec's words, for refinement comparison only (C5): a DFS
whose neighbor loop pushes every neighbor speculatively, with no visited check
at push time, the visited check happening only on pop. -/
def dfsSpecExpand (current : NodeId)
    (pr : List (NodeId × Option NodeId) × List NodeId) (ns : List Adj) :
    List (NodeId × Option NodeId) × List NodeId :=
  ns.reverse.foldl
    (fun pr a => (mapSet pr.1 a.node (some current), pr.2 ++ [a.node]))
    pr

/-- Modelled from the spec's words (C5): the dfs loop with the speculative,
check-free push of `dfsSpecExpand`; everything else is as in the source. -/
def dfsSpecLoop (g : Graph) (endId : NodeId) : ℕ → DfsState → List BEvent
  | 0, _ => []
  | fuel + 1, st =>
    match st.stack with
    | [] => [.done [] st.visited]
    | a :: t =>
        let current := (a :: t).getLast (List.cons_ne_nil a t)
        let rest := (a :: t).dropLast
        if st.visited.contains current then
          dfsSpecLoop g endId fuel { st with stack := rest }
        else
          let visited := st.visited ++ [current]
          let ev := BEvent.visit current visited (jsSet rest)
          if current = endId then
            [ev, .done (reconstructPath st.parent endId) visited]
          else
            let pr := dfsSpecExpand current (st.parent, rest) (g.getNeighbors current)
            ev :: dfsSpecLoop g endId fuel ⟨visited, pr.1, pr.2⟩

/-- Modelled from the spec's words (C5): dfs with speculative pushes. -/
def dfsSpec (g : Graph) (startId endId : NodeId) : List BEvent :=
  dfsSpecLoop g endId (dfsFuel g startId) ⟨[], mapSet [] startId none, [startId]⟩

/-- A 3-node graph on which the source dfs and the claimed speculative-push dfs
yield different traces (node b lists its unvisited neighbor first and the
already visited node a second, so the speculative variant leaves a duplicate of
a below c on the stack, visible in c's frontier snapshot). -/
def gC5 : Graph :=
  ⟨[("a", ⟨"a", 0, 0, "", ""⟩), ("b", ⟨"b", 1, 0, "", ""⟩), ("c", ⟨"c", 2, 0, "", ""⟩)],
   [("a", [⟨"b", 1⟩]), ("b", [⟨"c", 1⟩, ⟨"a", 1⟩]), ("c", [⟨"b", 1⟩])]⟩

/-- Counterexample to C5 as stated: the source dfs checks `visited` at push
time (algorithms.js line 119), so its trace differs from the claimed
push-without-visited-check semantics on `gC5`. -/
theorem dfs_not_speculative_push :
    dfs gC5 "a" "zz" ≠ dfsSpec gC5 "a" "zz" := by decide

theorem dfsExpand_stack (current : NodeId) (visited : List NodeId)
    (pr : List (NodeId × Option NodeId) × List NodeId) (ns : List Adj) :
    (dfsExpand current visited pr ns).2 =
      pr.2 ++ (ns.reverse.filter (fun a => !(visited.contains a.node))).map (·.node) := by
  unfold dfsExpand
  generalize ns.reverse = l
  induction l generalizing pr with
  | nil => simp
  | cons a t ih =>
      rw [List.foldl_cons, List.filter_cons]
      cases h : visited.contains a.node
      · rw [if_neg (by simp), if_pos (by simp)]
        rw [List.map_cons, ih]
        simp [List.append_assoc]
      · rw [if_pos rfl, if_neg (by simp)]
        exact ih pr

/-- One-step unfolding of the dfs loop on a nonempty stack. -/
theorem dfsLoop_cons (g : Graph) (e : NodeId) (fuel : ℕ) (vis : List NodeId)
    (par : List (NodeId × Option NodeId)) (q : List NodeId) (hq : q ≠ []) :
    dfsLoop g e (fuel + 1) ⟨vis, par, q⟩ =
      (if vis.contains (q.getLast hq) then
        dfsLoop g e fuel ⟨vis, par, q.dropLast⟩
      else
        let current := q.getLast hq
        let visited := vis ++ [current]
        let ev := BEvent.visit current visited (jsSet q.dropLast)
        if current = e then
          [ev, .done (reconstructPath par e) visited]
        else
          let pr := dfsExpand current visited (par, q.dropLast) (g.getNeighbors current)
          ev :: dfsLoop g e fuel ⟨visited, pr.1, pr.2⟩) := by
  cases q with
  | nil => exact absurd rfl hq
  | cons a t => rfl

/-- C5 amended.  In the source dfs a visited check happens already at push
time: when an unvisited node `c` on top of the stack is popped and is not the
target, its neighbors are pushed in reverse adjacency order (so the
first-listed neighbor ends on top and is explored first), but only those not
yet visited; a node may still be pushed while a copy of it sits on the stack
(there is no stack-membership check), and such duplicates are discarded by the
visited check on pop. -/
theorem dfs_push_discipline (g : Graph) (e : NodeId) (fuel : ℕ) (vis : List NodeId)
    (par : List (NodeId × Option NodeId)) (q : List NodeId) (c : NodeId) :
    (vis.contains c = true →
      dfsLoop g e (fuel + 1) ⟨vis, par, q ++ [c]⟩ = dfsLoop g e fuel ⟨vis, par, q⟩) ∧
    (vis.contains c = false → c ≠ e →
      dfsLoop g e (fuel + 1) ⟨vis, par, q ++ [c]⟩ =
        BEvent.visit c (vis ++ [c]) (jsSet q) ::
          dfsLoop g e fuel
            ⟨vis ++ [c],
             (dfsExpand c (vis ++ [c]) (par, q) (g.getNeighbors c)).1,
             q ++ ((g.getNeighbors c).reverse.filter
                (fun a => !((vis ++ [c]).contains a.node))).map (·.node)⟩) := by
  have hlast : (q ++ [c]).getLast (by simp) = c := by
    simp [List.getLast_append]
  have hdrop : (q ++ [c]).dropLast = q := by
    simp
  constructor
  · intro hc
    rw [dfsLoop_cons g e fuel vis par (q ++ [c]) (by simp)]
    rw [if_pos (by rw [hlast]; exact hc)]
    rw [hdrop]
  · intro hc hne
    rw [dfsLoop_cons g e fuel vis par (q ++ [c]) (by simp)]
    rw [if_neg (by rw [hlast, hc]; exact Bool.false_ne_true)]
    simp only [hlast, hdrop]
    rw [if_neg hne]
    rw [dfsExpand_stack]

/-- Witness for C5's amended theorem at a concrete instance. -/
theorem dfs_push_discipline_witness :
    dfsLoop gC5 "zz" 3 ⟨["a"], mapSet [] "a" none, ["c"] ++ ["b"]⟩ =
      BEvent.visit "b" (["a"] ++ ["b"]) (jsSet ["c"]) ::
        dfsLoop gC5 "zz" 2
          ⟨["a"] ++ ["b"],
           (dfsExpand "b" (["a"] ++ ["b"]) (mapSet [] "a" none, ["c"]) (gC5.getNeighbors "b")).1,
           ["c"] ++ ((gC5.getNeighbors "b").reverse.filter
              (fun a => !((["a"] ++ ["b"]).contains a.node))).map (·.node)⟩ :=
  (dfs_push_discipline gC5 "zz" 2 ["a"] (mapSet [] "a" none) ["c"] "b").2 (by decide)
    (by decide)

-- ============ C3 : behavior on unknown start/end ids ============

/-- A one-node graph used to exhibit the missing UnknownNode check. -/
def gC3 : Graph :=
  ⟨[("a", ⟨"a", 0, 0, "", ""⟩)], [("a", [])]⟩

/-- Counterexample to C3 as stated: with a startId absent from the graph
(`"x"` is not a node of `gC3`), bfs does not fail before any step; it yields a
Visit event for the unknown id and then a Done event.  There is no UnknownNode
validation anywhere in the source. -/
theorem unknown_start_still_yields_events :
    mapGet gC3.nodes "x" = none ∧
    bfs gC3 "x" "a" = [.visit "x" ["x"] [], .done [] ["x"]] := by
  constructor
  · decide
  · decide

theorem searchUniv_length_pos (g : Graph) (s : NodeId) : 0 < (searchUniv g s).length := by
  have : s ∈ searchUniv g s := by
    unfold searchUniv
    rw [List.mem_dedup]
    exact List.mem_cons_self _ _
  exact List.length_pos.mpr (List.ne_nil_of_mem this)

/-- C3 amended.  No algorithm validates its start or end id.  With a startId
that is not a node (hence has no adjacency list), BFS, DFS and Dijkstra accept
the search, yield exactly one Visit event for the unknown id, and then a Done
event with an empty path (the unknown id behaves like an isolated node); A*
instead crashes with a node-lookup TypeError on its very first step — before
any event — whenever the start id or the end id is unknown, because
`graph.heuristic(startId, endId)` dereferences both nodes.  An unknown endId is
likewise not validated by BFS/DFS/Dijkstra; those searches simply run to
exhaustion. -/
theorem no_unknown_node_validation (g : Graph) (s e : NodeId)
    (hn : mapGet g.nodes s = none) (he : mapGet g.edges s = none) (hne : s ≠ e) :
    bfs g s e = [.visit s [s] [], .done [] [s]] ∧
    dfs g s e = [.visit s [s] [], .done [] [s]] ∧
    dijkstra g s e = [.visit s [s] (dijInitDist g s), .done [] [s] ⊤] ∧
    aStar g s e = ([], true) ∧
    (∀ s2 e2 : NodeId, mapGet g.nodes e2 = none → aStar g s2 e2 = ([], true)) := by
  have hnb : g.getNeighbors s = [] := by
    unfold Graph.getNeighbors
    rw [he]
    rfl
  refine ⟨?_, ?_, ?_, ?_, ?_⟩
  · obtain ⟨k, hk⟩ : ∃ k, (searchUniv g s).length = k + 1 :=
      ⟨(searchUniv g s).length - 1, by have := searchUniv_length_pos g s; omega⟩
    unfold bfs
    rw [hk]
    show bfsLoop g e (k + 1 + 1) _ = _
    unfold bfsLoop
    simp only [if_neg hne, hnb]
    show _ :: bfsLoop g e (k + 1) ⟨[s], mapSet [] s none, []⟩ = _
    unfold bfsLoop
    rfl
  · unfold dfs dfsFuel
    show dfsLoop g e (_ + 1 + 1) _ = _
    unfold dfsLoop
    simp only [List.getLast_singleton, List.dropLast_single]
    rw [if_neg (by simp)]
    rw [if_neg hne]
    simp only [hnb]
    show _ :: dfsLoop g e (_ + 1) ⟨[s], _, []⟩ = _
    unfold dfsLoop
    rfl
  · unfold dijkstra dijFuel
    show dijLoop g e (_ + 1 + 1) _ = _
    unfold dijLoop
    dsimp only
    rw [show MinHeap.pop (MinHeap.push ([] : List (Entry ℤ NodeId)) ⟨0, s⟩) =
        some (⟨0, s⟩, []) by simp [MinHeap.push, bubbleUp, MinHeap.pop]]
    dsimp only
    rw [if_neg (by simp), if_neg hne, hnb]
    show _ :: dijLoop g e (_ + 1) _ = _
    unfold dijLoop
    rfl
  · unfold aStar
    unfold Graph.heuristic
    rw [hn]
  · intro s2 e2 hn2
    unfold aStar
    unfold Graph.heuristic
    rw [hn2]
    cases mapGet g.nodes s2 <;> rfl

/-- Witness for C3's amended theorem on a concrete graph and unknown id. -/
theorem no_unknown_node_validation_witness :
    bfs gC3 "x" "a" = [.visit "x" ["x"] [], .done [] ["x"]] :=
  (no_unknown_node_validation gC3 "x" "a" (by decide) (by decide)
    (by decide)).1

-- ============ C7 : weight invariants under addNode/addEdge sequences ============

/-- A graph-construction call. -/
inductive GOp where
  | addNode (id : NodeId) (x y : ℚ) (label ty : String)
  | addEdge (fromId toId : NodeId) (w : Option ℚ)

/-- Apply one construction call; an addEdge that throws leaves the graph
unchanged (both pushes happen after the node check). -/
noncomputable def applyOp (g : Graph) : GOp → Graph
  | .addNode id x y label ty => g.addNode id x y label ty
  | .addEdge u v w => (g.addEdge u v w).getD g

/-- The graph produced by a sequence of construction calls. -/
noncomputable def buildGraph (ops : List GOp) : Graph :=
  ops.foldl applyOp Graph.empty

/-- The weights stored in direction (u,v): the weights of u's adjacency
entries that point at v, in list order (the first one is what a JS
`neighbors.find(n => n.node === v)` lookup returns). -/
def weightsList (g : Graph) (u v : NodeId) : List ℤ :=
  ((g.getNeighbors u).filter (fun a => a.node = v)).map (·.weight)

theorem getNeighbors_addNode (g : Graph) (id : NodeId) (x y : ℚ) (label ty : String)
    (u : NodeId) : (g.addNode id x y label ty).getNeighbors u = g.getNeighbors u := by
  simp only [Graph.addNode, Graph.getNeighbors]
  by_cases he : (mapGet g.edges id).isSome
  · rw [if_pos he]
  · rw [if_neg he]
    by_cases hj : u = id
    · subst hj
      rw [mapGet_mapSet_self]
      rw [Option.not_isSome_iff_eq_none] at he
      rw [he]
      rfl
    · rw [mapGet_mapSet_ne _ hj]

theorem mapGet_adjPush (edges : List (NodeId × List Adj)) (k : NodeId) (e : Adj) (j : NodeId) :
    mapGet (adjPush edges k e) j =
      if j = k then (mapGet edges j).map (· ++ [e]) else mapGet edges j := by
  induction edges with
  | nil =>
      simp only [adjPush, List.map_nil, mapGet]
      split <;> rfl
  | cons p t ih =>
      obtain ⟨k', l⟩ := p
      show mapGet ((if k' = k then (k', l ++ [e]) else (k', l)) :: adjPush t k e) j = _
      by_cases hk : k' = k
      · subst hk
        rw [if_pos rfl]
        by_cases hj : k' = j
        · subst hj
          simp [mapGet]
        · simp [mapGet, hj, Ne.symm hj, ih]
      · rw [if_neg hk]
        by_cases hj : k' = j
        · subst hj
          simp [mapGet, hk]
        · simp [mapGet, hj, ih]

theorem isSome_mapGet_adjPush (edges : List (NodeId × List Adj)) (k : NodeId) (e : Adj)
    (j : NodeId) : (mapGet (adjPush edges k e) j).isSome = (mapGet edges j).isSome := by
  rw [mapGet_adjPush]
  split
  · cases mapGet edges j <;> rfl
  · rfl

/-- Appending through one adjPush, seen through getNeighbors' `|| []` default
(requires the pushed-to key to have an adjacency list, which addNode
guarantees for every node). -/
theorem getD_mapGet_adjPush (edges : List (NodeId × List Adj)) (k : NodeId) (e : Adj)
    (u : NodeId) (hk : (mapGet edges k).isSome) :
    (mapGet (adjPush edges k e) u).getD [] =
      (mapGet edges u).getD [] ++ (if u = k then [e] else []) := by
  rw [mapGet_adjPush]
  by_cases h : u = k
  · subst h
    rw [if_pos rfl, if_pos rfl]
    obtain ⟨l, hl⟩ := Option.isSome_iff_exists.mp hk
    rw [hl]
    rfl
  · rw [if_neg h, if_neg h]
    simp

theorem round_nonneg {x : ℝ} (hx : 0 ≤ x) : 0 ≤ round x := by
  rw [round_eq]
  rw [Int.floor_nonneg]
  linarith

/-- What addEdge does to every adjacency list when it succeeds and both
endpoints have adjacency lists: exactly one entry is appended on each side,
with one shared weight; the weight is non-negative whenever the passed weight
is absent (Euclidean default) or non-negative. -/
theorem getNeighbors_addEdge (g g' : Graph) (fromId toId : NodeId) (w : Option ℚ)
    (hok : g.addEdge fromId toId w = some g')
    (hf : (mapGet g.edges fromId).isSome) (ht : (mapGet g.edges toId).isSome) :
    ∃ wt : ℤ,
      (∀ u, g'.getNeighbors u =
        g.getNeighbors u ++
          ((if u = fromId then [⟨toId, wt⟩] else []) ++
           (if u = toId then [⟨fromId, wt⟩] else []))) ∧
      g'.nodes = g.nodes ∧
      (∀ j, (mapGet g'.edges j).isSome = (mapGet g.edges j).isSome) ∧
      (w = none → 0 ≤ wt) ∧ (∀ q, w = some q → 0 ≤ q → 0 ≤ wt) := by
  unfold Graph.addEdge at hok
  cases hnf : mapGet g.nodes fromId with
  | none => rw [hnf] at hok; cases hok
  | some a =>
  cases hnt : mapGet g.nodes toId with
  | none => rw [hnf, hnt] at hok; cases hok
  | some b =>
  rw [hnf, hnt] at hok
  simp only [Option.some_inj] at hok
  subst hok
  refine ⟨round (match w with
      | none => hypot (b.x - a.x) (b.y - a.y)
      | some q => (q : ℝ)), ?_, rfl, ?_, ?_, ?_⟩
  · intro u
    show (mapGet (adjPush (adjPush g.edges fromId _) toId _) u).getD [] = _
    rw [getD_mapGet_adjPush _ _ _ _ (by rw [isSome_mapGet_adjPush]; exact ht)]
    rw [getD_mapGet_adjPush _ _ _ _ hf]
    rw [List.append_assoc]
    rfl
  · intro j
    show (mapGet (adjPush (adjPush g.edges fromId _) toId _) j).isSome = _
    rw [isSome_mapGet_adjPush, isSome_mapGet_adjPush]
  · intro hw
    subst hw
    exact round_nonneg (Real.sqrt_nonneg _)
  · intro q hw hq
    subst hw
    exact round_nonneg (show (0 : ℝ) ≤ ((q : ℚ) : ℝ) by exact_mod_cast hq)

/-- Every node id in `nodes` has an adjacency list in `edges`; addNode
establishes this and both operations preserve it. -/
def NodesHaveAdj (g : Graph) : Prop :=
  ∀ k, (mapGet g.nodes k).isSome → (mapGet g.edges k).isSome

theorem addEdge_ok_nodes (g g' : Graph) (fromId toId : NodeId) (w : Option ℚ)
    (hok : g.addEdge fromId toId w = some g') :
    (mapGet g.nodes fromId).isSome ∧ (mapGet g.nodes toId).isSome := by
  unfold Graph.addEdge at hok
  cases hnf : mapGet g.nodes fromId with
  | none => rw [hnf] at hok; cases hok
  | some a =>
  cases hnt : mapGet g.nodes toId with
  | none => rw [hnf, hnt] at hok; cases hok
  | some b => exact ⟨rfl, rfl⟩

theorem map_filter_singleton_adj (b : NodeId) (w2 : ℤ) (v : NodeId) :
    (([⟨b, w2⟩] : List Adj).filter (fun a => a.node = v)).map (·.weight) =
      if b = v then [w2] else [] := by
  by_cases hb : b = v <;> simp [List.filter, hb]

theorem applyOp_invariant (g : Graph) (op : GOp)
    (hq : ∀ u v q, op = GOp.addEdge u v (some q) → 0 ≤ q)
    (h1 : NodesHaveAdj g)
    (h2 : ∀ u, ∀ x ∈ g.getNeighbors u, 0 ≤ x.weight)
    (h3 : ∀ u v, weightsList g u v = weightsList g v u) :
    NodesHaveAdj (applyOp g op) ∧
    (∀ u, ∀ x ∈ (applyOp g op).getNeighbors u, 0 ≤ x.weight) ∧
    (∀ u v, weightsList (applyOp g op) u v = weightsList (applyOp g op) v u) := by
  cases op with
  | addNode id xc yc label ty =>
      refine ⟨?_, ?_, ?_⟩
      · intro k hk
        simp only [applyOp, Graph.addNode] at hk ⊢
        by_cases hik : k = id
        · subst hik
          by_cases he : (mapGet g.edges k).isSome
          · rw [if_pos he]; exact he
          · rw [if_neg he, mapGet_mapSet_self]; rfl
        · rw [mapGet_mapSet_ne _ hik] at hk
          by_cases he : (mapGet g.edges id).isSome
          · rw [if_pos he]; exact h1 k hk
          · rw [if_neg he, mapGet_mapSet_ne _ hik]; exact h1 k hk
      · intro u x hx
        rw [show applyOp g (GOp.addNode id xc yc label ty) =
            g.addNode id xc yc label ty from rfl, getNeighbors_addNode] at hx
        exact h2 u x hx
      · intro u v
        unfold weightsList
        rw [show applyOp g (GOp.addNode id xc yc label ty) =
            g.addNode id xc yc label ty from rfl, getNeighbors_addNode, getNeighbors_addNode]
        exact h3 u v
  | addEdge u0 v0 w =>
      cases hok : g.addEdge u0 v0 w with
      | none =>
          rw [show applyOp g (GOp.addEdge u0 v0 w) = (g.addEdge u0 v0 w).getD g from rfl, hok]
          exact ⟨h1, h2, h3⟩
      | some g' =>
          have happ : applyOp g (GOp.addEdge u0 v0 w) = g' := by
            rw [show applyOp g (GOp.addEdge u0 v0 w) = (g.addEdge u0 v0 w).getD g from rfl, hok]
            rfl
          rw [happ]
          obtain ⟨hnf, hnt⟩ := addEdge_ok_nodes g g' u0 v0 w hok
          obtain ⟨wt, hadj, hnodes, hkeys, hwnone, hwsome⟩ :=
            getNeighbors_addEdge g g' u0 v0 w hok (h1 _ hnf) (h1 _ hnt)
          have hwt : 0 ≤ wt := by
            cases w with
            | none => exact hwnone rfl
            | some q => exact hwsome q rfl (hq u0 v0 q rfl)
          have key : ∀ u v, weightsList g' u v =
              weightsList g u v ++
                ((if u = u0 ∧ v0 = v then [wt] else []) ++
                 (if u = v0 ∧ u0 = v then [wt] else [])) := by
            intro u v
            unfold weightsList
            rw [hadj u, List.filter_append, List.map_append, List.filter_append,
              List.map_append]
            congr 1
            congr 1
            · by_cases hu : u = u0
              · rw [if_pos hu, map_filter_singleton_adj]
                by_cases hv : v0 = v
                · rw [if_pos hv, if_pos ⟨hu, hv⟩]
                · rw [if_neg hv, if_neg (fun hh => hv hh.2)]
              · rw [if_neg hu, if_neg (fun hh => hu hh.1)]
                rfl
            · by_cases hu : u = v0
              · rw [if_pos hu, map_filter_singleton_adj]
                by_cases hv : u0 = v
                · rw [if_pos hv, if_pos ⟨hu, hv⟩]
                · rw [if_neg hv, if_neg (fun hh => hv hh.2)]
              · rw [if_neg hu, if_neg (fun hh => hu hh.1)]
                rfl
          refine ⟨?_, ?_, ?_⟩
          · intro k hk
            rw [hnodes] at hk
            rw [hkeys]
            exact h1 k hk
          · intro u x hx
            rw [hadj u] at hx
            rcases List.mem_append.mp hx with hx | hx
            · exact h2 u x hx
            · rcases List.mem_append.mp hx with hx | hx
              · split at hx
                · rw [List.mem_singleton.mp hx]
                  exact hwt
                · cases hx
              · split at hx
                · rw [List.mem_singleton.mp hx]
                  exact hwt
                · cases hx
          · intro u v
            rw [key u v, key v u, h3 u v]
            congr 1
            by_cases d1 : u = u0 ∧ v0 = v <;> by_cases d2 : u = v0 ∧ u0 = v
            · rw [if_pos d1, if_pos d2,
                if_pos (show v = u0 ∧ v0 = u from ⟨d2.2.symm, d2.1.symm⟩),
                if_pos (show v = v0 ∧ u0 = u from ⟨d1.2.symm, d1.1.symm⟩)]
            · rw [if_pos d1, if_neg d2,
                if_neg (fun hh : v = u0 ∧ v0 = u => d2 ⟨hh.2.symm, hh.1.symm⟩),
                if_pos (show v = v0 ∧ u0 = u from ⟨d1.2.symm, d1.1.symm⟩)]
              rfl
            · rw [if_neg d1, if_pos d2,
                if_pos (show v = u0 ∧ v0 = u from ⟨d2.2.symm, d2.1.symm⟩),
                if_neg (fun hh : v = v0 ∧ u0 = u => d1 ⟨hh.2.symm, hh.1.symm⟩)]
              rfl
            · rw [if_neg d1, if_neg d2,
                if_neg (fun hh : v = u0 ∧ v0 = u => d2 ⟨hh.2.symm, hh.1.symm⟩),
                if_neg (fun hh : v = v0 ∧ u0 = u => d1 ⟨hh.2.symm, hh.1.symm⟩)]

theorem buildGraph_invariant_aux (ops : List GOp) :
    ∀ g : Graph,
      (∀ op ∈ ops, ∀ u v q, op = GOp.addEdge u v (some q) → 0 ≤ q) →
      NodesHaveAdj g →
      (∀ u, ∀ x ∈ g.getNeighbors u, 0 ≤ x.weight) →
      (∀ u v, weightsList g u v = weightsList g v u) →
      NodesHaveAdj (ops.foldl applyOp g) ∧
      (∀ u, ∀ x ∈ (ops.foldl applyOp g).getNeighbors u, 0 ≤ x.weight) ∧
      (∀ u v, weightsList (ops.foldl applyOp g) u v = weightsList (ops.foldl applyOp g) v u) := by
  induction ops with
  | nil => intro g _ h1 h2 h3; exact ⟨h1, h2, h3⟩
  | cons op rest ih =>
      intro g hq h1 h2 h3
      rw [List.foldl_cons]
      obtain ⟨k1, k2, k3⟩ :=
        applyOp_invariant g op (hq op (List.mem_cons_self _ _)) h1 h2 h3
      exact ih (applyOp g op) (fun o ho => hq o (List.mem_cons_of_mem _ ho)) k1 k2 k3

/-- Symmetry alone needs no weight hypothesis: one construction call keeps the
directional weight lists equal whatever weight (even negative) it carries,
because addEdge pushes the same rounded weight on both adjacency lists. -/
theorem applyOp_sym_invariant (g : Graph) (op : GOp)
    (h1 : NodesHaveAdj g)
    (h3 : ∀ u v, weightsList g u v = weightsList g v u) :
    NodesHaveAdj (applyOp g op) ∧
    (∀ u v, weightsList (applyOp g op) u v = weightsList (applyOp g op) v u) := by
  cases op with
  | addNode id xc yc label ty =>
      refine ⟨?_, ?_⟩
      · intro k hk
        simp only [applyOp, Graph.addNode] at hk ⊢
        by_cases hik : k = id
        · subst hik
          by_cases he : (mapGet g.edges k).isSome
          · rw [if_pos he]; exact he
          · rw [if_neg he, mapGet_mapSet_self]; rfl
        · rw [mapGet_mapSet_ne _ hik] at hk
          by_cases he : (mapGet g.edges id).isSome
          · rw [if_pos he]; exact h1 k hk
          · rw [if_neg he, mapGet_mapSet_ne _ hik]; exact h1 k hk
      · intro u v
        unfold weightsList
        rw [show applyOp g (GOp.addNode id xc yc label ty) =
            g.addNode id xc yc label ty from rfl, getNeighbors_addNode, getNeighbors_addNode]
        exact h3 u v
  | addEdge u0 v0 w =>
      cases hok : g.addEdge u0 v0 w with
      | none =>
          rw [show applyOp g (GOp.addEdge u0 v0 w) = (g.addEdge u0 v0 w).getD g from rfl, hok]
          exact ⟨h1, h3⟩
      | some g' =>
          have happ : applyOp g (GOp.addEdge u0 v0 w) = g' := by
            rw [show applyOp g (GOp.addEdge u0 v0 w) = (g.addEdge u0 v0 w).getD g from rfl, hok]
            rfl
          rw [happ]
          obtain ⟨hnf, hnt⟩ := addEdge_ok_nodes g g' u0 v0 w hok
          obtain ⟨wt, hadj, hnodes, hkeys, _, _⟩ :=
            getNeighbors_addEdge g g' u0 v0 w hok (h1 _ hnf) (h1 _ hnt)
          have key : ∀ u v, weightsList g' u v =
              weightsList g u v ++
                ((if u = u0 ∧ v0 = v then [wt] else []) ++
                 (if u = v0 ∧ u0 = v then [wt] else [])) := by
            intro u v
            unfold weightsList
            rw [hadj u, List.filter_append, List.map_append, List.filter_append,
              List.map_append]
            congr 1
            congr 1
            · by_cases hu : u = u0
              · rw [if_pos hu, map_filter_singleton_adj]
                by_cases hv : v0 = v
                · rw [if_pos hv, if_pos ⟨hu, hv⟩]
                · rw [if_neg hv, if_neg (fun hh => hv hh.2)]
              · rw [if_neg hu, if_neg (fun hh => hu hh.1)]
                rfl
            · by_cases hu : u = v0
              · rw [if_pos hu, map_filter_singleton_adj]
                by_cases hv : u0 = v
                · rw [if_pos hv, if_pos ⟨hu, hv⟩]
                · rw [if_neg hv, if_neg (fun hh => hv hh.2)]
              · rw [if_neg hu, if_neg (fun hh => hu hh.1)]
                rfl
          refine ⟨?_, ?_⟩
          · intro k hk
            rw [hnodes] at hk
            rw [hkeys]
            exact h1 k hk
          · intro u v
            rw [key u v, key v u, h3 u v]
            congr 1
            by_cases d1 : u = u0 ∧ v0 = v <;> by_cases d2 : u = v0 ∧ u0 = v
            · rw [if_pos d1, if_pos d2,
                if_pos (show v = u0 ∧ v0 = u from ⟨d2.2.symm, d2.1.symm⟩),
                if_pos (show v = v0 ∧ u0 = u from ⟨d1.2.symm, d1.1.symm⟩)]
            · rw [if_pos d1, if_neg d2,
                if_neg (fun hh : v = u0 ∧ v0 = u => d2 ⟨hh.2.symm, hh.1.symm⟩),
                if_pos (show v = v0 ∧ u0 = u from ⟨d1.2.symm, d1.1.symm⟩)]
              rfl
            · rw [if_neg d1, if_pos d2,
                if_pos (show v = u0 ∧ v0 = u from ⟨d2.2.symm, d2.1.symm⟩),
                if_neg (fun hh : v = v0 ∧ u0 = u => d1 ⟨hh.2.symm, hh.1.symm⟩)]
              rfl
            · rw [if_neg d1, if_neg d2,
                if_neg (fun hh : v = u0 ∧ v0 = u => d2 ⟨hh.2.symm, hh.1.symm⟩),
                if_neg (fun hh : v = v0 ∧ u0 = u => d1 ⟨hh.2.symm, hh.1.symm⟩)]

theorem buildGraph_sym_aux (ops : List GOp) :
    ∀ g : Graph,
      NodesHaveAdj g →
      (∀ u v, weightsList g u v = weightsList g v u) →
      NodesHaveAdj (ops.foldl applyOp g) ∧
      (∀ u v, weightsList (ops.foldl applyOp g) u v =
        weightsList (ops.foldl applyOp g) v u) := by
  induction ops with
  | nil => intro g h1 h3; exact ⟨h1, h3⟩
  | cons op rest ih =>
      intro g h1 h3
      rw [List.foldl_cons]
      obtain ⟨k1, k3⟩ := applyOp_sym_invariant g op h1 h3
      exact ih (applyOp g op) k1 k3

/-- C7 amended.  After any sequence of addNode/addEdge calls — with no
condition whatsoever on the passed weights — every stored weight is an integer
(by construction: `Math.round` is always applied, modelled by the `ℤ` weight
type) and the directional weight lists agree: looking up (u,v) returns exactly
the weights that looking up (v,u) returns, in the same order.  The weights are
moreover all non-negative provided every explicitly passed weight is
non-negative — defaulted (Euclidean) weights always are.  An explicitly passed
negative weight, however, is stored negative (see the counterexample), so the
unconditional non-negativity of the original claim does not hold. -/
theorem build_weights_sym_nonneg (ops : List GOp) :
    (∀ u v, weightsList (buildGraph ops) u v = weightsList (buildGraph ops) v u) ∧
    ((∀ op ∈ ops, ∀ u v q, op = GOp.addEdge u v (some q) → 0 ≤ q) →
      ∀ u, ∀ x ∈ (buildGraph ops).getNeighbors u, 0 ≤ x.weight) := by
  constructor
  · exact (buildGraph_sym_aux ops Graph.empty
      (fun k hk => by cases hk) (fun u v => rfl)).2
  · intro hpos
    exact (buildGraph_invariant_aux ops Graph.empty hpos
      (fun k hk => by cases hk)
      (fun u x hx => by cases hx)
      (fun u v => rfl)).2.1

/-- A construction sequence passing an explicit negative weight. -/
def negOps : List GOp :=
  [.addNode "a" 0 0 "" "", .addNode "b" 3 4 "" "", .addEdge "a" "b" (some (-1))]

/-- Counterexample to C7 as stated: `addEdge('a','b',-1)` stores the weight
`round(-1) = -1`, which is negative, on both adjacency lists. -/
theorem negative_weight_stored :
    weightsList (buildGraph negOps) "a" "b" = [(-1 : ℤ)] ∧ ¬(0 ≤ (-1 : ℤ)) := by
  constructor
  · show [round (((-1 : ℚ) : ℝ))] = [(-1 : ℤ)]
    rw [show ((-1 : ℚ) : ℝ) = ((-1 : ℤ) : ℝ) by norm_num, round_intCast]
  · decide

/-- Witness for C7's amended theorem: symmetry holds even on the sequence with
a negative explicit weight, and on a sequence of defaulted and non-negative
explicit weights the non-negativity half applies with its hypothesis
discharged. -/
theorem build_weights_sym_nonneg_witness :
    weightsList (buildGraph negOps) "a" "b" = weightsList (buildGraph negOps) "b" "a" ∧
    (∀ u, ∀ x ∈ (buildGraph [.addNode "a" 0 0 "" "", .addNode "b" 3 4 "" "",
        .addEdge "a" "b" none, .addEdge "b" "a" (some 7)]).getNeighbors u, 0 ≤ x.weight) :=
  ⟨(build_weights_sym_nonneg negOps).1 "a" "b",
    (build_weights_sym_nonneg _).2
      (by
        intro op hop u v q heq
        simp only [List.mem_cons, List.not_mem_nil, or_false] at hop
        rcases hop with rfl | rfl | rfl | rfl
        · exact GOp.noConfusion heq
        · exact GOp.noConfusion heq
        · injection heq with e1 e2 e3
          exact Option.noConfusion e3
        · injection heq with e1 e2 e3
          injection e3 with e4
          rw [← e4]
          norm_num)⟩

-- ============ C6 : abort on an empty-path leg ============

/-- C6.  If a leg's engine finishes with a Done event whose path is empty, the
orchestrator aborts the whole trip right there: the outcome is
`noPathForLeg` naming that leg's start and end, the outcome does not depend on
the remaining stops (no engine is constructed for them — the loop returns
before reaching them), and no trip-complete result is ever reported. -/
theorem trip_aborts_on_empty_leg (g : Graph) (a : Algo) (acc : TripAcc)
    (fromId toId : NodeId) (rest rest2 : List NodeId) (res : LegResult)
    (h1 : runLeg g a fromId toId = .ok (some res)) (h2 : res.path = []) :
    runLegs g a acc (fromId :: toId :: rest) = .noPathForLeg fromId toId ∧
    runLegs g a acc (fromId :: toId :: rest) = runLegs g a acc (fromId :: toId :: rest2) ∧
    (∀ acc2, runLegs g a acc (fromId :: toId :: rest) ≠ .complete acc2) := by
  have hcore : ∀ r : List NodeId,
      runLegs g a acc (fromId :: toId :: r) = .noPathForLeg fromId toId := by
    intro r
    unfold runLegs
    rw [h1]
    have hlen : ¬ res.path.length > 0 := by
      rw [h2]
      simp
    simp only [hlen, if_false]
  refine ⟨hcore rest, ?_, ?_⟩
  · rw [hcore rest, hcore rest2]
  · intro acc2
    rw [hcore rest]
    exact fun hh => TripOutcome.noConfusion hh

/-- Three isolated nodes: every leg fails with an empty path. -/
def gC6 : Graph :=
  ⟨[("a", ⟨"a", 0, 0, "", ""⟩), ("b", ⟨"b", 1, 0, "", ""⟩), ("c", ⟨"c", 2, 0, "", ""⟩)],
   [("a", []), ("b", []), ("c", [])]⟩

/-- Witness for C6: on the disconnected graph the first leg a→b fails and the
trip is reported as `noPathForLeg a b` without touching the leg b→c. -/
theorem trip_aborts_on_empty_leg_witness :
    runLegs gC6 Algo.bfs ⟨0, 0, []⟩ ["a", "b", "c"] = .noPathForLeg "a" "b" :=
  (trip_aborts_on_empty_leg gC6 Algo.bfs ⟨0, 0, []⟩ "a" "b" ["c"] [] ⟨[], none, 1⟩
    rfl rfl).1

-- ============ C9 : min-heap infrastructure ============

/-- The binary min-heap invariant on the backing array: every non-root element
is not smaller than its parent (stated through the source's own comparison
`optLt`, which is false when either index is out of range). -/
def heapProp {P V : Type} [LinearOrder P] (l : List (Entry P V)) : Prop :=
  ∀ j, j < l.length → 0 < j → optLt (priAt l j) (priAt l ((j - 1) / 2)) = false

theorem optLt_true_iff {P : Type} [LinearOrder P] {x y : Option P} :
    optLt x y = true ↔ ∃ a b, x = some a ∧ y = some b ∧ a < b := by
  cases x with
  | none => simp [optLt]
  | some a =>
      cases y with
      | none => simp [optLt]
      | some b => simp [optLt]

theorem optLt_false_iff {P : Type} [LinearOrder P] {a b : P} :
    optLt (some a) (some b) = false ↔ b ≤ a := by
  simp [optLt, not_lt]

theorem priAt_isSome {P V : Type} (l : List (Entry P V)) {k : ℕ} (h : k < l.length) :
    priAt l k = some ((l.get ⟨k, h⟩).priority) := by
  simp [priAt, List.getElem?_eq_getElem h]

/-- Transitivity at the option level: if the entry at `j` is at least the one
at `k`, and the one at `k` at least the one at `m2`, then `j` is at least
`m2`. -/
theorem optLt_false_trans {P V : Type} [LinearOrder P] {l : List (Entry P V)} {j k m2 : ℕ}
    (hj : j < l.length) (hk : k < l.length) (hm : m2 < l.length)
    (h1 : optLt (priAt l j) (priAt l k) = false)
    (h2 : optLt (priAt l k) (priAt l m2) = false) :
    optLt (priAt l j) (priAt l m2) = false := by
  rw [priAt_isSome l hj, priAt_isSome l hk] at h1
  rw [priAt_isSome l hk, priAt_isSome l hm] at h2
  rw [priAt_isSome l hj, priAt_isSome l hm]
  rw [optLt_false_iff] at h1 h2 ⊢
  exact le_trans h2 h1

theorem priAt_lswap {P V : Type} {l : List (Entry P V)} {i j : ℕ}
    (hi : i < l.length) (hj : j < l.length) (k : ℕ) :
    priAt (lswap l i j) k =
      if k = j then priAt l i else if k = i then priAt l j else priAt l k := by
  unfold lswap priAt
  rw [List.getElem?_eq_getElem hi, List.getElem?_eq_getElem hj]
  show (((l.set i l[j]).set j l[i])[k]?).map _ = _
  by_cases hkj : k = j
  · subst hkj
    simp [List.getElem?_set, List.length_set, hj, List.getElem?_eq_getElem hi, priAt]
  · by_cases hki : k = i
    · subst hki
      simp [List.getElem?_set, List.length_set, hi, Ne.symm hkj, hkj,
        List.getElem?_eq_getElem hj, priAt]
    · simp [List.getElem?_set, Ne.symm hkj, Ne.symm hki, hkj, hki, priAt]

theorem lswap_perm {α : Type} (l : List α) (i j : ℕ) : (lswap l i j).Perm l := by
  classical
  unfold lswap
  cases hi : l[i]? with
  | none => exact List.Perm.refl l
  | some a =>
  cases hj : l[j]? with
  | none => exact List.Perm.refl l
  | some b =>
  obtain ⟨hi2, hia⟩ := List.getElem?_eq_some.mp hi
  obtain ⟨hj2, hjb⟩ := List.getElem?_eq_some.mp hj
  rw [List.perm_iff_count]
  intro x
  show List.count x ((l.set i b).set j a) = List.count x l
  have hlen : j < (l.set i b).length := by rw [List.length_set]; exact hj2
  rw [List.count_set a x ((l.set i b)) j hlen]
  rw [List.count_set b x l i hi2]
  have hsb : (l.set i b)[j] = if i = j then b else l[j] := List.getElem_set hlen
  have hmema : a ∈ l := hia ▸ List.getElem_mem hi2
  have hmemb : b ∈ l := hjb ▸ List.getElem_mem hj2
  have hca : (a == x) = true → 1 ≤ List.count x l := by
    intro hh
    rw [beq_iff_eq] at hh
    subst hh
    exact List.count_pos_iff.mpr hmema
  have hcbl : (b == x) = true → 1 ≤ List.count x l := by
    intro hh
    rw [beq_iff_eq] at hh
    subst hh
    exact List.count_pos_iff.mpr hmemb
  rw [hia, hsb]
  by_cases hij : i = j
  · subst hij
    have hab : a = b := by rw [← hia, ← hjb]
    subst hab
    rw [if_pos rfl]
    by_cases hax : (a == x) = true
    · have h1 := hca hax
      simp only [hax, if_true]
      omega
    · simp only [hax, Bool.false_eq_true, if_false]
      omega
  · rw [if_neg hij, hjb]
    by_cases hax : (a == x) = true
    · have h1 := hca hax
      by_cases hbx : (b == x) = true
      · simp only [hax, hbx, if_true]
        omega
      · simp only [hax, hbx, Bool.false_eq_true, eq_self_iff_true, if_true, if_false]
        omega
    · by_cases hbx : (b == x) = true
      · simp only [hax, hbx, Bool.false_eq_true, eq_self_iff_true, if_true, if_false]
        omega
      · simp only [hax, hbx, Bool.false_eq_true, if_false]
        omega

/-- The invariant carried by _bubbleUp: the heap order can fail only at the
edge from `i` to its parent, and the grandparent already bounds `i`'s
children. -/
def bubbleInv {P V : Type} [LinearOrder P] (l : List (Entry P V)) (i : ℕ) : Prop :=
  (∀ j, j < l.length → 0 < j → j ≠ i → optLt (priAt l j) (priAt l ((j - 1) / 2)) = false) ∧
  (∀ j, j < l.length → 0 < j → (j - 1) / 2 = i → 0 < i →
      optLt (priAt l j) (priAt l ((i - 1) / 2)) = false)

theorem bubbleInv_swap {P V : Type} [LinearOrder P] {l : List (Entry P V)} {i : ℕ}
    (hi : i < l.length) (h0 : 0 < i) (hinv : bubbleInv l i)
    (hlt : optLt (priAt l i) (priAt l ((i - 1) / 2)) = true) :
    bubbleInv (lswap l i ((i - 1) / 2)) ((i - 1) / 2) := by
  obtain ⟨inv1, inv2⟩ := hinv
  set p := (i - 1) / 2 with hp
  have hpi : p < i := by omega
  have hpl : p < l.length := lt_trans hpi hi
  have hswap : ∀ k, priAt (lswap l i p) k =
      if k = p then priAt l i else if k = i then priAt l p else priAt l k :=
    priAt_lswap hi hpl
  have hlen : (lswap l i p).length = l.length := lswap_length l i p
  obtain ⟨pi2, pp2, hpi2, hpp2, hplt⟩ := optLt_true_iff.mp hlt
  constructor
  · intro j hj hj0 hjp
    rw [hlen] at hj
    rw [hswap j, if_neg hjp, hswap ((j - 1) / 2)]
    by_cases hji : j = i
    · rw [if_pos hji, if_pos (by rw [hji])]
      rw [hpp2, hpi2, optLt_false_iff]
      exact le_of_lt hplt
    · rw [if_neg hji]
      by_cases hqp : (j - 1) / 2 = p
      · rw [if_pos hqp]
        have h1 := inv1 j hj hj0 hji
        rw [hqp] at h1
        rw [priAt_isSome l hj] at h1 ⊢
        rw [hpp2] at h1
        rw [hpi2]
        rw [optLt_false_iff] at h1 ⊢
        exact le_of_lt (lt_of_lt_of_le hplt h1)
      · rw [if_neg hqp]
        by_cases hqi : (j - 1) / 2 = i
        · rw [if_pos hqi]
          exact inv2 j hj hj0 hqi h0
        · rw [if_neg hqi]
          exact inv1 j hj hj0 hji
  · intro j hj hj0 hjq hp0
    rw [hlen] at hj
    have hrp : ¬(p - 1) / 2 = p := by omega
    have hri : ¬(p - 1) / 2 = i := by omega
    have hjgtp : p < j := by omega
    rw [hswap j, hswap ((p - 1) / 2), if_neg hrp, if_neg hri]
    have hjnep : ¬j = p := by omega
    rw [if_neg hjnep]
    by_cases hji : j = i
    · rw [if_pos hji]
      have h1 := inv1 p hpl hp0 (by omega)
      exact h1
    · rw [if_neg hji]
      have h1 := inv1 j hj hj0 hji
      rw [hjq] at h1
      have h2 := inv1 p hpl hp0 (by omega)
      exact optLt_false_trans hj hpl
        (lt_trans (show (p - 1) / 2 < p by omega) hpl) h1 h2

/-- If no swap is needed at `i` (or `i` is the root), `bubbleInv` collapses to
the full heap property. -/
theorem bubbleInv_term {P V : Type} [LinearOrder P] {l : List (Entry P V)} {i : ℕ}
    (hinv : bubbleInv l i)
    (hge : 0 < i → optLt (priAt l i) (priAt l ((i - 1) / 2)) = false) :
    heapProp l := by
  intro j hj hj0
  by_cases hji : j = i
  · rw [hji]
    by_cases h0 : 0 < i
    · exact hge h0
    · omega
  · exact hinv.1 j hj hj0 hji

theorem bubbleUp_heapProp {P V : Type} [LinearOrder P] :
    ∀ (i : ℕ) (l : List (Entry P V)), i < l.length → bubbleInv l i →
      heapProp (bubbleUp l i) := by
  intro i
  induction i using Nat.strong_induction_on with
  | _ i ih =>
      intro l hi hinv
      rw [bubbleUp]
      by_cases h0 : 0 < i
      · rw [dif_pos h0]
        show heapProp (if optLt (priAt l i) (priAt l ((i - 1) / 2)) = true then
          bubbleUp (lswap l i ((i - 1) / 2)) ((i - 1) / 2) else l)
        by_cases hlt : optLt (priAt l i) (priAt l ((i - 1) / 2)) = true
        · rw [if_pos hlt]
          exact ih ((i - 1) / 2) (by omega) _
            (by rw [lswap_length]; omega) (bubbleInv_swap hi h0 hinv hlt)
        · rw [if_neg hlt]
          exact bubbleInv_term hinv (fun _ => Bool.eq_false_iff.mpr hlt)
      · rw [dif_neg h0]
        exact bubbleInv_term hinv (fun hh => absurd hh h0)

theorem bubbleUp_perm {P V : Type} [LinearOrder P] :
    ∀ (i : ℕ) (l : List (Entry P V)), (bubbleUp l i).Perm l := by
  intro i
  induction i using Nat.strong_induction_on with
  | _ i ih =>
      intro l
      rw [bubbleUp]
      by_cases h0 : 0 < i
      · rw [dif_pos h0]
        show (if optLt (priAt l i) (priAt l ((i - 1) / 2)) = true then
          bubbleUp (lswap l i ((i - 1) / 2)) ((i - 1) / 2) else l).Perm l
        by_cases hlt : optLt (priAt l i) (priAt l ((i - 1) / 2)) = true
        · rw [if_pos hlt]
          exact (ih ((i - 1) / 2) (by omega) _).trans (lswap_perm l i ((i - 1) / 2))
        · rw [if_neg hlt]
      · rw [dif_neg h0]

theorem priAt_append_left {P V : Type} (l l2 : List (Entry P V)) {k : ℕ} (h : k < l.length) :
    priAt (l ++ l2) k = priAt l k := by
  unfold priAt
  rw [List.getElem?_append, if_pos h]

/-- MinHeap.push preserves the heap property. -/
theorem push_heapProp {P V : Type} [LinearOrder P] {l : List (Entry P V)}
    (h : heapProp l) (e : Entry P V) : heapProp (MinHeap.push l e) := by
  unfold MinHeap.push
  apply bubbleUp_heapProp
  · rw [List.length_append]
    simp
  · constructor
    · intro j hj hj0 hjn
      rw [List.length_append, List.length_singleton] at hj
      have hjl : j < l.length := by omega
      have hql : (j - 1) / 2 < l.length := by omega
      rw [priAt_append_left l [e] hjl, priAt_append_left l [e] hql]
      exact h j hjl hj0
    · intro j hj hj0 hjq hq0
      rw [List.length_append, List.length_singleton] at hj
      omega

theorem push_perm {P V : Type} [LinearOrder P] (l : List (Entry P V)) (e : Entry P V) :
    (MinHeap.push l e).Perm (l ++ [e]) :=
  bubbleUp_perm l.length (l ++ [e])

theorem optLt_irrefl {P : Type} [LinearOrder P] (x : Option P) : optLt x x = false := by
  cases x with
  | none => rfl
  | some a => simp [optLt]

theorem optLt_asymm {P : Type} [LinearOrder P] {x y : Option P}
    (h : optLt x y = true) : optLt y x = false := by
  obtain ⟨a, b, rfl, rfl, hab⟩ := optLt_true_iff.mp h
  rw [optLt_false_iff]
  exact le_of_lt hab

theorem optLt_true_trans {P : Type} [LinearOrder P] {x y z : Option P}
    (h1 : optLt x y = true) (h2 : optLt y z = true) : optLt x z = true := by
  obtain ⟨a, b, rfl, rfl, hab⟩ := optLt_true_iff.mp h1
  obtain ⟨b2, c, hb2, rfl, hbc⟩ := optLt_true_iff.mp h2
  cases hb2
  exact optLt_true_iff.mpr ⟨a, c, rfl, rfl, lt_trans hab hbc⟩

/-- The invariant carried by _sinkDown: the heap order can fail only on the
edges from `i` down to its children, and `i`'s parent already bounds those
children. -/
def sinkInv {P V : Type} [LinearOrder P] (l : List (Entry P V)) (i : ℕ) : Prop :=
  (∀ j, j < l.length → 0 < j → (j - 1) / 2 ≠ i →
      optLt (priAt l j) (priAt l ((j - 1) / 2)) = false) ∧
  (∀ j, j < l.length → 0 < j → (j - 1) / 2 = i → 0 < i →
      optLt (priAt l j) (priAt l ((i - 1) / 2)) = false)

theorem sinkCandidate_self_spec {P V : Type} [LinearOrder P] {l : List (Entry P V)} {i : ℕ}
    (h : sinkCandidate l i = i) :
    (2 * i + 1 < l.length → optLt (priAt l (2 * i + 1)) (priAt l i) = false) ∧
    (2 * i + 2 < l.length → optLt (priAt l (2 * i + 2)) (priAt l i) = false) := by
  unfold sinkCandidate at h
  dsimp only at h
  by_cases c1 : 2 * i + 1 < l.length ∧ optLt (priAt l (2 * i + 1)) (priAt l i) = true
  · rw [if_pos c1] at h
    split at h <;> omega
  · rw [if_neg c1] at h
    constructor
    · intro hl
      rcases Bool.eq_false_or_eq_true (optLt (priAt l (2 * i + 1)) (priAt l i)) with hb | hb
      · exact absurd ⟨hl, hb⟩ c1
      · exact hb
    · intro hr
      by_cases c2 : 2 * i + 2 < l.length ∧ optLt (priAt l (2 * i + 2)) (priAt l i) = true
      · rw [if_pos c2] at h
        omega
      · rcases Bool.eq_false_or_eq_true (optLt (priAt l (2 * i + 2)) (priAt l i)) with hb | hb
        · exact absurd ⟨hr, hb⟩ c2
        · exact hb

theorem sinkCandidate_ne_spec {P V : Type} [LinearOrder P] {l : List (Entry P V)} {i : ℕ}
    (h : sinkCandidate l i ≠ i) :
    sinkCandidate l i < l.length ∧ i < sinkCandidate l i ∧
    (sinkCandidate l i - 1) / 2 = i ∧
    optLt (priAt l (sinkCandidate l i)) (priAt l i) = true ∧
    (∀ j, j < l.length → (j - 1) / 2 = i → 0 < j →
        optLt (priAt l j) (priAt l (sinkCandidate l i)) = false) := by
  unfold sinkCandidate at h ⊢
  dsimp only at h ⊢
  by_cases c1 : 2 * i + 1 < l.length ∧ optLt (priAt l (2 * i + 1)) (priAt l i) = true
  · rw [if_pos c1] at h ⊢
    by_cases c2 : 2 * i + 2 < l.length ∧
        optLt (priAt l (2 * i + 2)) (priAt l (2 * i + 1)) = true
    · rw [if_pos c2] at h ⊢
      refine ⟨c2.1, by omega, by omega, optLt_true_trans c2.2 c1.2, ?_⟩
      intro j hj hjpar hj0
      have : j = 2 * i + 1 ∨ j = 2 * i + 2 := by omega
      rcases this with rfl | rfl
      · exact optLt_asymm c2.2
      · exact optLt_irrefl _
    · rw [if_neg c2] at h ⊢
      refine ⟨c1.1, by omega, by omega, c1.2, ?_⟩
      intro j hj hjpar hj0
      have : j = 2 * i + 1 ∨ j = 2 * i + 2 := by omega
      rcases this with rfl | rfl
      · exact optLt_irrefl _
      · rcases Bool.eq_false_or_eq_true
            (optLt (priAt l (2 * i + 2)) (priAt l (2 * i + 1))) with hb | hb
        · exact absurd ⟨hj, hb⟩ c2
        · exact hb
  · rw [if_neg c1] at h ⊢
    by_cases c2 : 2 * i + 2 < l.length ∧ optLt (priAt l (2 * i + 2)) (priAt l i) = true
    · rw [if_pos c2] at h ⊢
      refine ⟨c2.1, by omega, by omega, c2.2, ?_⟩
      intro j hj hjpar hj0
      have : j = 2 * i + 1 ∨ j = 2 * i + 2 := by omega
      rcases this with rfl | rfl
      · -- left child is not below i, and the right child is strictly below i
        have hl1 : optLt (priAt l (2 * i + 1)) (priAt l i) = false := by
          rcases Bool.eq_false_or_eq_true (optLt (priAt l (2 * i + 1)) (priAt l i)) with hb | hb
          · exact absurd ⟨hj, hb⟩ c1
          · exact hb
        obtain ⟨a, b, ha, hb2, hab⟩ := optLt_true_iff.mp c2.2
        rw [priAt_isSome l hj] at hl1 ⊢
        rw [hb2] at hl1
        rw [ha]
        rw [optLt_false_iff] at hl1 ⊢
        exact le_of_lt (lt_of_lt_of_le hab hl1)
      · exact optLt_irrefl _
    · rw [if_neg c2] at h
      exact absurd rfl h

/-- One sink step preserves the invariant, recentered at the swapped-to
child. -/
theorem sinkInv_swap {P V : Type} [LinearOrder P] {l : List (Entry P V)} {i : ℕ}
    (hinv : sinkInv l i) (hne : sinkCandidate l i ≠ i) :
    sinkInv (lswap l i (sinkCandidate l i)) (sinkCandidate l i) := by
  obtain ⟨inv1, inv2⟩ := hinv
  obtain ⟨hcl, hic, hcpar, hclt, hcmin⟩ := sinkCandidate_ne_spec hne
  set c := sinkCandidate l i with hc
  have hil : i < l.length := lt_trans hic hcl
  have hswap : ∀ k, priAt (lswap l i c) k =
      if k = c then priAt l i else if k = i then priAt l c else priAt l k :=
    priAt_lswap hil hcl
  have hlen : (lswap l i c).length = l.length := lswap_length l i c
  constructor
  · intro j hj hj0 hjq
    rw [hlen] at hj
    rw [hswap j, hswap ((j - 1) / 2)]
    by_cases hjc : j = c
    · rw [if_pos hjc, hjc, hcpar, if_neg (by omega), if_pos rfl]
      exact optLt_asymm hclt
    · rw [if_neg hjc]
      by_cases hji : j = i
      · have h0i : 0 < i := by omega
        have hpari : (i - 1) / 2 < i := by omega
        rw [if_pos hji, hji, if_neg (by omega), if_neg (by omega)]
        exact inv2 c hcl (by omega) hcpar h0i
      · rw [if_neg hji]
        by_cases hqi : (j - 1) / 2 = i
        · rw [if_neg (by rw [hqi]; omega), if_pos hqi]
          exact hcmin j hj hqi hj0
        · rw [if_neg (by rw [hc] at hjq ⊢; exact hjq), if_neg hqi]
          exact inv1 j hj hj0 hqi
  · intro j hj hj0 hjq hc0
    rw [hlen] at hj
    have hjc : ¬j = c := by omega
    have hji : ¬j = i := by omega
    rw [hswap j, hswap ((c - 1) / 2), hcpar, if_neg hjc, if_neg hji,
      if_neg (by omega), if_pos rfl]
    have h1 := inv1 j hj hj0 (by rw [hjq]; omega)
    rw [hjq] at h1
    exact h1

theorem sinkInv_term {P V : Type} [LinearOrder P] {l : List (Entry P V)} {i : ℕ}
    (hinv : sinkInv l i) (h : sinkCandidate l i = i) : heapProp l := by
  intro j hj hj0
  by_cases hq : (j - 1) / 2 = i
  · have hspec := sinkCandidate_self_spec h
    have hj12 : j = 2 * i + 1 ∨ j = 2 * i + 2 := by omega
    rw [hq]
    rcases hj12 with rfl | rfl
    · exact hspec.1 hj
    · exact hspec.2 hj
  · exact hinv.1 j hj hj0 hq

theorem sinkDown_heapProp {P V : Type} [LinearOrder P] :
    ∀ (fuel : ℕ) (l : List (Entry P V)) (i : ℕ), l.length - i ≤ fuel → sinkInv l i →
      heapProp (sinkDown l i) := by
  intro fuel
  induction fuel with
  | zero =>
      intro l i hf hinv
      have hc : sinkCandidate l i = i := by
        unfold sinkCandidate
        dsimp only
        rw [if_neg (fun hcon => absurd hcon.1 (by omega)),
          if_neg (fun hcon => absurd hcon.1 (by omega))]
      rw [sinkDown]
      show heapProp (if h : sinkCandidate l i ≠ i then
        sinkDown (lswap l i (sinkCandidate l i)) (sinkCandidate l i) else l)
      rw [dif_neg (not_ne_iff.mpr hc)]
      exact sinkInv_term hinv hc
  | succ n ih =>
      intro l i hf hinv
      rw [sinkDown]
      show heapProp (if h : sinkCandidate l i ≠ i then
        sinkDown (lswap l i (sinkCandidate l i)) (sinkCandidate l i) else l)
      by_cases hne : sinkCandidate l i ≠ i
      · rw [dif_pos hne]
        apply ih
        · rw [lswap_length]
          have := (sinkCandidate_ne_spec hne).2.1
          omega
        · exact sinkInv_swap hinv hne
      · rw [dif_neg hne]
        exact sinkInv_term hinv (not_ne_iff.mp hne)

theorem sinkDown_perm {P V : Type} [LinearOrder P] :
    ∀ (fuel : ℕ) (l : List (Entry P V)) (i : ℕ), l.length - i ≤ fuel →
      (sinkDown l i).Perm l := by
  intro fuel
  induction fuel with
  | zero =>
      intro l i hf
      have hc : sinkCandidate l i = i := by
        unfold sinkCandidate
        dsimp only
        rw [if_neg (fun hcon => absurd hcon.1 (by omega)),
          if_neg (fun hcon => absurd hcon.1 (by omega))]
      rw [sinkDown]
      show (if h : sinkCandidate l i ≠ i then
        sinkDown (lswap l i (sinkCandidate l i)) (sinkCandidate l i) else l).Perm l
      rw [dif_neg (not_ne_iff.mpr hc)]
  | succ n ih =>
      intro l i hf
      rw [sinkDown]
      show (if h : sinkCandidate l i ≠ i then
        sinkDown (lswap l i (sinkCandidate l i)) (sinkCandidate l i) else l).Perm l
      by_cases hne : sinkCandidate l i ≠ i
      · rw [dif_pos hne]
        refine ((ih _ _ ?_).trans (lswap_perm l i (sinkCandidate l i)))
        rw [lswap_length]
        have := (sinkCandidate_ne_spec hne).2.1
        omega
      · rw [dif_neg hne]

/-- In a heap, the root has the least priority. -/
theorem heapProp_root_min {P V : Type} [LinearOrder P] {l : List (Entry P V)}
    (hp : heapProp l) : ∀ k, k < l.length → optLt (priAt l k) (priAt l 0) = false := by
  intro k
  induction k using Nat.strong_induction_on with
  | _ k ih =>
      intro hk
      by_cases h0 : 0 < k
      · have hpar : (k - 1) / 2 < k := by omega
        have hparlen : (k - 1) / 2 < l.length := lt_trans hpar hk
        exact optLt_false_trans hk hparlen (by omega) (hp k hk h0) (ih _ hpar hparlen)
      · have hk0 : k = 0 := by omega
        subst hk0
        rw [priAt_isSome l hk, optLt_false_iff]

theorem priAt_popRest {P V : Type} (l : List (Entry P V)) (last : Entry P V)
    {j : ℕ} (hj0 : 0 < j) (hj : j < l.length - 1) :
    priAt ((l.dropLast).set 0 last) j = priAt l j := by
  unfold priAt
  rw [List.getElem?_set, if_neg (by omega), List.getElem?_dropLast, if_pos hj]

/-- MinHeap.pop on a heap returns the minimum and leaves a heap of the
remaining entries. -/
theorem pop_correct {P V : Type} [LinearOrder P] {l : List (Entry P V)}
    (hp : heapProp l) {top : Entry P V} {rest : List (Entry P V)}
    (h : MinHeap.pop l = some (top, rest)) :
    heapProp rest ∧ (top :: rest).Perm l ∧
      ∀ x ∈ rest, top.priority ≤ x.priority := by
  cases l with
  | nil => exact absurd h (by simp [MinHeap.pop])
  | cons a t =>
  cases t with
  | nil =>
      have h2 : some (a, ([] : List (Entry P V))) = some (top, rest) := h
      have h3 := Option.some.inj h2
      rw [Prod.mk.injEq] at h3
      obtain ⟨rfl, rfl⟩ := h3
      refine ⟨?_, List.Perm.refl _, ?_⟩
      · intro j hj hj0
        simp at hj
      · intro x hx
        simp at hx
  | cons b t2 =>
      have h2 : some (a, sinkDown (((a :: b :: t2).dropLast).set 0
            ((b :: t2).getLast (List.cons_ne_nil _ _))) 0) = some (top, rest) := h
      have h3 := Option.some.inj h2
      rw [Prod.mk.injEq] at h3
      obtain ⟨rfl, rfl⟩ := h3
      have hinv : sinkInv (((a :: b :: t2).dropLast).set 0
          ((b :: t2).getLast (List.cons_ne_nil _ _))) 0 := by
        constructor
        · intro j hj hj0 hjq
          rw [List.length_set, List.length_dropLast] at hj
          have hparpos : 0 < (j - 1) / 2 := by omega
          rw [priAt_popRest _ _ hj0 hj, priAt_popRest _ _ hparpos (by omega)]
          exact hp j (by omega) hj0
        · intro j hj hj0 hjq h0
          exact absurd h0 (lt_irrefl 0)
      have hperm : (sinkDown (((a :: b :: t2).dropLast).set 0
          ((b :: t2).getLast (List.cons_ne_nil _ _))) 0).Perm
          (((a :: b :: t2).dropLast).set 0 ((b :: t2).getLast (List.cons_ne_nil _ _))) :=
        sinkDown_perm ((((a :: b :: t2).dropLast).set 0
          ((b :: t2).getLast (List.cons_ne_nil _ _))).length) _ 0 (by omega)
      refine ⟨sinkDown_heapProp ((((a :: b :: t2).dropLast).set 0
          ((b :: t2).getLast (List.cons_ne_nil _ _))).length) _ 0 (by omega) hinv, ?_, ?_⟩
      · have hstep1 : (a :: sinkDown (((a :: b :: t2).dropLast).set 0
            ((b :: t2).getLast (List.cons_ne_nil _ _))) 0).Perm
            (a :: ((b :: t2).dropLast ++ [(b :: t2).getLast (List.cons_ne_nil _ _)])) := by
          refine List.Perm.cons a (hperm.trans ?_)
          exact (List.perm_append_singleton _ _).symm
        have hstep2 : (b :: t2).dropLast ++ [(b :: t2).getLast (List.cons_ne_nil _ _)] =
            b :: t2 := List.dropLast_append_getLast (List.cons_ne_nil b t2)
        rw [hstep2] at hstep1
        exact hstep1
      · intro x hx
        have hx1 : x ∈ ((b :: t2).getLast (List.cons_ne_nil _ _)) :: (b :: t2).dropLast :=
          hperm.subset hx
        have hx0 : x ∈ (a :: b :: t2) := by
          rcases List.mem_cons.mp hx1 with rfl | hx3
          · exact List.mem_cons_of_mem a (List.getLast_mem _)
          · exact List.mem_cons_of_mem a (List.dropLast_subset _ hx3)
        obtain ⟨k, hk, hkx⟩ := List.getElem_of_mem hx0
        have hroot := heapProp_root_min hp k hk
        rw [priAt_isSome _ hk, priAt_isSome _ (by simp), optLt_false_iff] at hroot
        have hgx : ((a :: b :: t2).get ⟨k, hk⟩) = x := hkx
        rw [hgx] at hroot
        exact hroot

/-- C9: the MinHeap maintains the min-heap property after every push and
every pop (each element's priority is at least its parent's), pop on a
non-empty heap succeeds, and the entry it returns has priority less than or
equal to the priority of every entry remaining in the heap. -/
theorem minHeap_push_pop_correct {P V : Type} [LinearOrder P]
    {l : List (Entry P V)} (hp : heapProp l) (e : Entry P V) :
    heapProp (MinHeap.push l e) ∧
    (∀ top rest, MinHeap.pop l = some (top, rest) →
      heapProp rest ∧ ∀ x ∈ rest, top.priority ≤ x.priority) ∧
    (l ≠ [] → ∃ top rest, MinHeap.pop l = some (top, rest)) := by
  refine ⟨push_heapProp hp e,
    fun top rest h => ⟨(pop_correct hp h).1, (pop_correct hp h).2.2⟩, ?_⟩
  intro hne
  cases l with
  | nil => exact absurd rfl hne
  | cons a t =>
  cases t with
  | nil => exact ⟨a, [], rfl⟩
  | cons b t2 => exact ⟨a, _, rfl⟩

theorem minHeap_push_pop_correct_witness :
    heapProp ([⟨1, "a"⟩, ⟨2, "b"⟩, ⟨3, "c"⟩] : List (Entry ℤ NodeId)) ∧
    (heapProp (MinHeap.push ([⟨1, "a"⟩, ⟨2, "b"⟩, ⟨3, "c"⟩] : List (Entry ℤ NodeId)) ⟨0, "d"⟩) ∧
      (∀ top rest, MinHeap.pop ([⟨1, "a"⟩, ⟨2, "b"⟩, ⟨3, "c"⟩] : List (Entry ℤ NodeId)) =
          some (top, rest) →
        heapProp rest ∧ ∀ x ∈ rest, top.priority ≤ x.priority) ∧
      (([⟨1, "a"⟩, ⟨2, "b"⟩, ⟨3, "c"⟩] : List (Entry ℤ NodeId)) ≠ [] →
        ∃ top rest, MinHeap.pop ([⟨1, "a"⟩, ⟨2, "b"⟩, ⟨3, "c"⟩] : List (Entry ℤ NodeId)) =
          some (top, rest))) :=
  ⟨by unfold heapProp; decide,
    minHeap_push_pop_correct (by unfold heapProp; decide) ⟨0, "d"⟩⟩

-- ============ C2 : admissibility of the default-weight heuristic ============

/-- A graph all of whose adjacency entries carry the default weight computed by
addEdge: the rounded Euclidean distance between the two endpoints' stored
coordinates. -/
def DefaultWeights (g : Graph) : Prop :=
  ∀ u v : NodeId, ∀ w : ℤ, Adj.mk v w ∈ g.getNeighbors u →
    ∃ nu nv : NodeData, mapGet g.nodes u = some nu ∧ mapGet g.nodes v = some nv ∧
      w = round (hypot (nv.x - nu.x) (nv.y - nu.y))

theorem hypot_eq_complexAbs (dx dy : ℚ) :
    hypot dx dy = Complex.abs ⟨(dx : ℝ), (dy : ℝ)⟩ := by
  rw [hypot, Complex.abs_apply, Complex.normSq_apply]
  norm_num [sq]

theorem hypot_nonneg (dx dy : ℚ) : 0 ≤ hypot dx dy :=
  Real.sqrt_nonneg _

/-- Triangle inequality for the plane distance used by graph.js. -/
theorem hypot_triangle (na nb nc : NodeData) :
    hypot (nc.x - na.x) (nc.y - na.y) ≤
      hypot (nb.x - na.x) (nb.y - na.y) + hypot (nc.x - nb.x) (nc.y - nb.y) := by
  rw [hypot_eq_complexAbs, hypot_eq_complexAbs, hypot_eq_complexAbs]
  have h := Complex.abs.sub_le ⟨(nc.x : ℝ), (nc.y : ℝ)⟩ ⟨(nb.x : ℝ), (nb.y : ℝ)⟩
    ⟨(na.x : ℝ), (na.y : ℝ)⟩
  have e1 : (⟨(nc.x : ℝ), (nc.y : ℝ)⟩ - ⟨(na.x : ℝ), (na.y : ℝ)⟩ : ℂ) =
      ⟨((nc.x - na.x : ℚ) : ℝ), ((nc.y - na.y : ℚ) : ℝ)⟩ := by
    apply Complex.ext <;> simp [Complex.sub_re, Complex.sub_im]
  have e2 : (⟨(nc.x : ℝ), (nc.y : ℝ)⟩ - ⟨(nb.x : ℝ), (nb.y : ℝ)⟩ : ℂ) =
      ⟨((nc.x - nb.x : ℚ) : ℝ), ((nc.y - nb.y : ℚ) : ℝ)⟩ := by
    apply Complex.ext <;> simp [Complex.sub_re, Complex.sub_im]
  have e3 : (⟨(nb.x : ℝ), (nb.y : ℝ)⟩ - ⟨(na.x : ℝ), (na.y : ℝ)⟩ : ℂ) =
      ⟨((nb.x - na.x : ℚ) : ℝ), ((nb.y - na.y : ℚ) : ℝ)⟩ := by
    apply Complex.ext <;> simp [Complex.sub_re, Complex.sub_im]
  rw [e1, e2, e3] at h
  linarith [h]

/-- Along any costed walk of a default-weight graph, the straight-line distance
from the start to the end is at most the walk's weight plus half an edge count
(each edge loses at most 1/2 to Math.round). -/
theorem hypot_le_cost_add_half {g : Graph} (hD : DefaultWeights g) {a : NodeId} :
    ∀ {b : NodeId} {c : ℤ} {k : ℕ}, CostWalk g a b c k →
    ∀ {na nb : NodeData}, mapGet g.nodes a = some na → mapGet g.nodes b = some nb →
    hypot (nb.x - na.x) (nb.y - na.y) ≤ (c : ℝ) + (k : ℝ) / 2 := by
  intro b c k hw
  induction hw with
  | refl =>
      intro na nb hna hnb
      rw [hna] at hnb
      cases Option.some.inj hnb
      simp [hypot]
  | snoc hw hmem ih =>
      intro na nb hna hnb
      obtain ⟨nu, nv, hnu, hnv, hwval⟩ := hD _ _ _ hmem
      rw [hnv] at hnb
      cases Option.some.inj hnb
      have htri := hypot_triangle na nu nb
      have hih := ih hna hnu
      have hround : hypot (nb.x - nu.x) (nb.y - nu.y) <
          (round (hypot (nb.x - nu.x) (nb.y - nu.y)) : ℝ) + 1 / 2 := by
        have := sub_half_lt_round (hypot (nb.x - nu.x) (nb.y - nu.y))
        linarith
      rw [← hwval] at hround
      push_cast
      push_cast at hih
      linarith

/-- C2: on a graph whose edges all carry the default (rounded Euclidean)
weight, the heuristic between two nodes is at most the total weight of any
walk between them plus half the walk's edge count; the unqualified
"heuristic ≤ total weight" bound of the claim fails by this rounding slack. -/
theorem heuristic_admissible_up_to_rounding {g : Graph} (hD : DefaultWeights g)
    {a b : NodeId} {hval : ℝ} {c : ℤ} {k : ℕ}
    (hh : g.heuristic a b = some hval) (hw : CostWalk g a b c k) :
    hval ≤ (c : ℝ) + (k : ℝ) / 2 := by
  unfold Graph.heuristic at hh
  cases hna : mapGet g.nodes a with
  | none => rw [hna] at hh; exact absurd hh (by simp)
  | some na =>
  cases hnb : mapGet g.nodes b with
  | none => rw [hna, hnb] at hh; exact absurd hh (by simp)
  | some nb =>
      rw [hna, hnb] at hh
      cases Option.some.inj hh
      exact hypot_le_cost_add_half hD hw hna hnb

theorem one_le_sqrt_two : (1 : ℝ) ≤ Real.sqrt 2 := by
  rw [show (1 : ℝ) = Real.sqrt 1 by simp]
  exact Real.sqrt_le_sqrt (by norm_num)

theorem sqrt_two_lt : Real.sqrt 2 < 3 / 2 := by
  rw [show (3 / 2 : ℝ) = Real.sqrt ((3 / 2) ^ 2) by rw [Real.sqrt_sq] <;> norm_num]
  exact Real.sqrt_lt_sqrt (by norm_num) (by norm_num)

theorem round_sqrt_two : round (Real.sqrt 2) = 1 := by
  rw [round_eq, Int.floor_eq_iff]
  constructor
  · push_cast
    linarith [one_le_sqrt_two]
  · push_cast
    linarith [sqrt_two_lt]

/-- The two-node default-weight graph: a at (0,0), b at (1,1), one edge with
the defaulted weight round(Math.hypot(1,1)) = round √2 = 1. -/
noncomputable def gC2 : Graph :=
  (((Graph.empty.addNode "a" 0 0 "" "").addNode "b" 1 1 "" "").addEdge "a" "b" none).getD
    Graph.empty

theorem hypot_one_one : hypot 1 1 = Real.sqrt 2 := by
  rw [hypot]
  norm_num

theorem gC2_eq : gC2 = ⟨[("a", ⟨"a", 0, 0, "", ""⟩), ("b", ⟨"b", 1, 1, "", ""⟩)],
    [("a", [⟨"b", 1⟩]), ("b", [⟨"a", 1⟩])]⟩ := by
  unfold gC2 Graph.addEdge Graph.addNode Graph.empty
  simp only [mapGet, mapSet, adjPush, String.reduceEq, reduceIte, Option.isSome,
    Option.getD_some]
  norm_num [String.reduceEq]
  rw [hypot_one_one, round_sqrt_two]
  simp

theorem gC2_heuristic : gC2.heuristic "a" "b" = some (Real.sqrt 2) := by
  rw [gC2_eq]
  unfold Graph.heuristic
  simp only [mapGet, String.reduceEq, reduceIte]
  norm_num
  rw [hypot_one_one]

theorem gC2_neighbors_a : gC2.getNeighbors "a" = [⟨"b", 1⟩] := by
  rw [gC2_eq]
  unfold Graph.getNeighbors
  simp [mapGet]

theorem gC2_neighbors_b : gC2.getNeighbors "b" = [⟨"a", 1⟩] := by
  rw [gC2_eq]
  unfold Graph.getNeighbors
  simp [mapGet]

theorem gC2_neighbors_other (u : NodeId) (hu : u ≠ "a") (hv : u ≠ "b") :
    gC2.getNeighbors u = [] := by
  rw [gC2_eq]
  unfold Graph.getNeighbors
  simp only [mapGet]
  rw [if_neg (fun hh => hu hh.symm), if_neg (fun hh => hv hh.symm)]
  rfl

theorem gC2_walk : CostWalk gC2 "a" "b" 1 1 := by
  have hmem : Adj.mk "b" 1 ∈ gC2.getNeighbors "a" := by
    rw [gC2_neighbors_a]
    exact List.mem_singleton.mpr rfl
  have h := CostWalk.snoc (CostWalk.refl : CostWalk gC2 "a" "a" 0 0) hmem
  simpa using h

theorem gC2_default : DefaultWeights gC2 := by
  intro u v w hmem
  by_cases hu : u = "a"
  · subst hu
    rw [gC2_neighbors_a] at hmem
    rw [List.mem_singleton] at hmem
    cases hmem
    refine ⟨⟨"a", 0, 0, "", ""⟩, ⟨"b", 1, 1, "", ""⟩, ?_, ?_, ?_⟩
    · rw [gC2_eq]; simp [mapGet]
    · rw [gC2_eq]; simp [mapGet]
    · norm_num
      rw [hypot_one_one, round_sqrt_two]
  · by_cases hb : u = "b"
    · subst hb
      rw [gC2_neighbors_b] at hmem
      rw [List.mem_singleton] at hmem
      cases hmem
      refine ⟨⟨"b", 1, 1, "", ""⟩, ⟨"a", 0, 0, "", ""⟩, ?_, ?_, ?_⟩
      · rw [gC2_eq]; simp [mapGet]
      · rw [gC2_eq]; simp [mapGet]
      · norm_num
        rw [show hypot (-1) (-1) = Real.sqrt 2 by rw [hypot]; norm_num, round_sqrt_two]
    · rw [gC2_neighbors_other u hu hb] at hmem
      simp at hmem

/-- C2 counterexample: nodes at (0,0) and (1,1) joined by a default-weight
edge give edge weight round √2 = 1, while the heuristic between the endpoints
is √2 > 1, exceeding the total weight of the one-edge walk. -/
theorem heuristic_exceeds_path_weight :
    DefaultWeights gC2 ∧ gC2.heuristic "a" "b" = some (Real.sqrt 2) ∧
      CostWalk gC2 "a" "b" 1 1 ∧ ¬ (Real.sqrt 2 ≤ ((1 : ℤ) : ℝ)) := by
  refine ⟨gC2_default, gC2_heuristic, gC2_walk, ?_⟩
  push_cast
  rw [not_le, show (1 : ℝ) = Real.sqrt 1 by simp]
  exact Real.sqrt_lt_sqrt (by norm_num) (by norm_num)

theorem heuristic_admissible_up_to_rounding_witness :
    DefaultWeights gC2 ∧ gC2.heuristic "a" "b" = some (Real.sqrt 2) ∧
      CostWalk gC2 "a" "b" 1 1 ∧ Real.sqrt 2 ≤ ((1 : ℤ) : ℝ) + (1 : ℕ) / 2 :=
  ⟨gC2_default, gC2_heuristic, gC2_walk,
    heuristic_admissible_up_to_rounding gC2_default gC2_heuristic gC2_walk⟩

-- ============ C4 : BFS finds a minimum-edge path ============

/-- A walk of `k` edges (of some total cost) from `u` to `v`. -/
def Walk (g : Graph) (u v : NodeId) (k : ℕ) : Prop :=
  ∃ c, CostWalk g u v c k

theorem mapGet_mem {α : Type} {m : List (NodeId × α)} {k : NodeId} {v : α}
    (h : mapGet m k = some v) : (k, v) ∈ m := by
  induction m with
  | nil => exact absurd h (by simp [mapGet])
  | cons p t ih =>
      obtain ⟨k', v'⟩ := p
      simp only [mapGet] at h
      by_cases hk : k' = k
      · rw [if_pos hk] at h
        cases Option.some.inj h
        subst hk
        exact List.mem_cons_self _ _
      · rw [if_neg hk] at h
        exact List.mem_cons_of_mem _ (ih h)

theorem mem_adjTargets {g : Graph} {u : NodeId} {a : Adj} (h : a ∈ g.getNeighbors u) :
    a.node ∈ adjTargets g := by
  unfold Graph.getNeighbors at h
  cases hm : mapGet g.edges u with
  | none => rw [hm] at h; simp at h
  | some l =>
      rw [hm] at h
      simp only [Option.getD_some] at h
      have hmem : (u, l) ∈ g.edges := mapGet_mem hm
      unfold adjTargets
      exact List.mem_map.mpr ⟨a,
        List.mem_flatten.mpr ⟨l, List.mem_map.mpr ⟨(u, l), hmem, rfl⟩, h⟩, rfl⟩

theorem mem_searchUniv_of_adj {g : Graph} (s : NodeId) {u : NodeId} {a : Adj}
    (h : a ∈ g.getNeighbors u) : a.node ∈ searchUniv g s := by
  unfold searchUniv
  rw [List.mem_dedup]
  exact List.mem_cons_of_mem _ (mem_adjTargets h)

theorem self_mem_searchUniv (g : Graph) (s : NodeId) : s ∈ searchUniv g s := by
  unfold searchUniv
  rw [List.mem_dedup]
  exact List.mem_cons_self _ _

theorem mapSet_length_fresh {α : Type} {m : List (NodeId × α)} {k : NodeId}
    (h : mapGet m k = none) (v : α) : (mapSet m k v).length = m.length + 1 := by
  induction m with
  | nil => rfl
  | cons p t ih =>
      obtain ⟨k', v'⟩ := p
      simp only [mapGet] at h
      by_cases hk : k' = k
      · rw [if_pos hk] at h
        exact absurd h (by simp)
      · rw [if_neg hk] at h
        simp only [mapSet, if_neg hk, List.length_cons, ih h]

/-- The termination measure of the bfs loop: unvisited universe plus queue. -/
def bfsMes (g : Graph) (s : NodeId) (st : BfsState) : ℕ :=
  ((searchUniv g s).filter (fun x => !(st.visited.contains x))).length + st.queue.length

/-- Invariant of the bfs loop relative to a depth assignment `D`.  Between
iterations `u` is the most recently processed node (initially the start node,
still in the queue) of depth `d`; during the expansion of a popped node `u`
the closure field exempts `u`, whose neighbors are being enqueued. -/
structure BfsInvar (g : Graph) (s e u : NodeId) (d : ℕ) (st : BfsState)
    (D : NodeId → ℕ) : Prop where
  s_mem : s ∈ st.visited
  s_par : mapGet st.parent s = some none
  s_depth : D s = 0
  par_struct : ∀ v ∈ st.visited, v ≠ s →
    ∃ p, mapGet st.parent v = some (some p) ∧ p ∈ st.visited ∧
      (∃ w, Adj.mk v w ∈ g.getNeighbors p) ∧ D v = D p + 1
  sound : ∀ v ∈ st.visited, Walk g s v (D v)
  dmin : ∀ v ∈ st.visited, ∀ k, Walk g s v k → D v ≤ k
  q_sub : ∀ v ∈ st.queue, v ∈ st.visited
  q_nodup : st.queue.Nodup
  q_pair : List.Pairwise (fun a b => D a ≤ D b ∧ D b ≤ D a + 1) st.queue
  q_bound : ∀ v ∈ st.queue, d ≤ D v ∧ D v ≤ d + 1
  closure_ex : ∀ v ∈ st.visited, v ∉ st.queue → v ≠ u →
    ∀ a ∈ g.getNeighbors v, a.node ∈ st.visited
  keys : ∀ v : NodeId, (mapGet st.parent v).isSome ↔ v ∈ st.visited
  depth_bound : ∀ v ∈ st.visited, D v + 1 ≤ st.parent.length
  end_pend : e ∈ st.visited → e ∈ st.queue ∨ e = u
  u_mem : u ∈ st.visited
  u_depth : D u = d

/-- The loop-level invariant: some processed node `u` closes the exemption,
either because its neighbors are all enqueued or because it is still queued. -/
def BfsLoopInv (g : Graph) (s e : NodeId) (st : BfsState) (D : NodeId → ℕ) : Prop :=
  ∃ u d, BfsInvar g s e u d st D ∧
    ((∀ a ∈ g.getNeighbors u, a.node ∈ st.visited) ∨ u ∈ st.queue) ∧
    (e ∈ st.visited → e ∈ st.queue)

/-- Completeness: every node within distance `d` of the start, closer than
every queued node, has been visited. -/
theorem bfs_cpl {g : Graph} {s : NodeId} {V Q : List NodeId} {D : NodeId → ℕ} {d : ℕ}
    (hs : s ∈ V)
    (hdmin : ∀ v ∈ V, ∀ k, Walk g s v k → D v ≤ k)
    (hclo : ∀ v ∈ V, v ∉ Q →
      ((∀ k, Walk g s v k → d ≤ k) ∨ ∀ a ∈ g.getNeighbors v, a.node ∈ V)) :
    ∀ k, k < d → ∀ v, Walk g s v k → (∀ q ∈ Q, k < D q) → v ∈ V := by
  intro k
  induction k using Nat.strong_induction_on with
  | _ k ih =>
      intro hkd v hw hq
      obtain ⟨c, hcw⟩ := hw
      cases hcw with
      | refl => exact hs
      | @snoc u3 vtail w c' k' hwalk hmem =>
          have hu3 : u3 ∈ V := by
            refine ih k' (by omega) (by omega) u3 ⟨c', hwalk⟩ ?_
            intro q hq2
            have := hq q hq2
            omega
          by_cases hvV : v ∈ V
          · exact hvV
          · have hu3q : u3 ∉ Q := by
              intro hin
              have h1 := hdmin u3 hu3 k' ⟨c', hwalk⟩
              have h2 := hq u3 hin
              omega
            rcases hclo u3 hu3 hu3q with hdeep | hcl
            · have := hdeep k' ⟨c', hwalk⟩
              omega
            · exact absurd (hcl _ hmem) hvV

/-- reconstructPath follows the parent forest back to the start and yields a
genuine edge path whose vertex count is the recorded depth plus one. -/
theorem reconstructGo_spec {g : Graph} {s : NodeId} {P : List (NodeId × Option NodeId)}
    {D : NodeId → ℕ}
    (hs_par : mapGet P s = some none) (hDs : D s = 0)
    (hstruct : ∀ v : NodeId, (mapGet P v).isSome → v ≠ s →
      ∃ p, mapGet P v = some (some p) ∧ (mapGet P p).isSome ∧
        (∃ w, Adj.mk v w ∈ g.getNeighbors p) ∧ D v = D p + 1) :
    ∀ n v, (mapGet P v).isSome → D v < n →
      IsEdgePath g s v (reconstructGo P n v) ∧ (reconstructGo P n v).length = D v + 1 := by
  intro n
  induction n with
  | zero => intro v _ h; omega
  | succ n ih =>
      intro v hvsome hvd
      by_cases hvs : v = s
      · subst hvs
        have hred : reconstructGo P (n + 1) v = [v] := by
          conv_lhs => rw [reconstructGo]
          rw [hs_par]
        rw [hred]
        exact ⟨⟨rfl, rfl, List.chain'_singleton v⟩, by simp [hDs]⟩
      · obtain ⟨p, hp, hpsome, ⟨w, hedge⟩, hD⟩ := hstruct v hvsome hvs
        have hred : reconstructGo P (n + 1) v = reconstructGo P n p ++ [v] := by
          conv_lhs => rw [reconstructGo]
          rw [hp]
        obtain ⟨⟨hh, hl, hc⟩, ihlen⟩ := ih p hpsome (by omega)
        rw [hred]
        refine ⟨⟨?_, ?_, ?_⟩, ?_⟩
        · rw [List.head?_append, hh]
          rfl
        · exact List.getLast?_concat _
        · rw [List.chain'_append]
          refine ⟨hc, List.chain'_singleton v, ?_⟩
          intro x hx y hy
          rw [hl] at hx
          cases Option.mem_unique hx (Option.mem_def.mpr rfl)
          simp only [List.head?_cons, Option.mem_def, Option.some.injEq] at hy
          subst hy
          exact ⟨w, hedge⟩
        · rw [List.length_append, ihlen]
          simp [hD]

theorem not_mem_of_contains_false {l : List NodeId} {x : NodeId}
    (h : l.contains x = false) : x ∉ l := by
  intro hmem
  rw [← List.elem_iff] at hmem
  have h2 : l.contains x = true := hmem
  rw [h] at h2
  exact Bool.noConfusion h2

theorem mem_of_contains_true {l : List NodeId} {x : NodeId}
    (h : l.contains x = true) : x ∈ l := by
  rw [← List.elem_iff]
  exact h

/-- Enqueueing one fresh neighbor of the current node preserves the invariant. -/
theorem bfsStep_inv {g : Graph} {s e u : NodeId} {d : ℕ} {st : BfsState} {D : NodeId → ℕ}
    (hinv : BfsInvar g s e u d st D) (a : Adj) (ha : a ∈ g.getNeighbors u)
    (hwV : a.node ∉ st.visited) :
    BfsInvar g s e u d
      ⟨st.visited ++ [a.node], mapSet st.parent a.node (some u), st.queue ++ [a.node]⟩
      (Function.update D a.node (d + 1)) := by
  have hw_s : a.node ≠ s := fun h => hwV (h ▸ hinv.s_mem)
  have hw_u : a.node ≠ u := fun h => hwV (h ▸ hinv.u_mem)
  have hwP : mapGet st.parent a.node = none := by
    cases h : mapGet st.parent a.node with
    | none => rfl
    | some o =>
        exact absurd ((hinv.keys a.node).mp (by rw [h]; rfl)) hwV
  have hedge : Adj.mk a.node a.weight ∈ g.getNeighbors u := ha
  have hD'w : Function.update D a.node (d + 1) a.node = d + 1 := Function.update_same _ _ _
  have hD'v : ∀ v : NodeId, v ≠ a.node → Function.update D a.node (d + 1) v = D v :=
    fun v hv => Function.update_noteq hv _ _
  refine ⟨?_, ?_, ?_, ?_, ?_, ?_, ?_, ?_, ?_, ?_, ?_, ?_, ?_, ?_, ?_, ?_⟩
  · exact List.mem_append.mpr (Or.inl hinv.s_mem)
  · rw [mapGet_mapSet_ne _ hw_s.symm]
    exact hinv.s_par
  · rw [hD'v s hw_s.symm]
    exact hinv.s_depth
  · intro v hv hvs
    rcases List.mem_append.mp hv with hvV | hvw
    · obtain ⟨p, hp, hpV, hedge2, hDv⟩ := hinv.par_struct v hvV hvs
      have hvw : v ≠ a.node := fun h => hwV (h ▸ hvV)
      have hpw : p ≠ a.node := fun h => hwV (h ▸ hpV)
      refine ⟨p, ?_, List.mem_append.mpr (Or.inl hpV), hedge2, ?_⟩
      · rw [mapGet_mapSet_ne _ hvw]
        exact hp
      · rw [hD'v v hvw, hD'v p hpw]
        exact hDv
    · have hvw : v = a.node := by simpa using hvw
      subst hvw
      refine ⟨u, mapGet_mapSet_self _ _ _, List.mem_append.mpr (Or.inl hinv.u_mem),
        ⟨a.weight, hedge⟩, ?_⟩
      rw [hD'w, hD'v u hw_u.symm, hinv.u_depth]
  · intro v hv
    rcases List.mem_append.mp hv with hvV | hvw
    · have hvw : v ≠ a.node := fun h => hwV (h ▸ hvV)
      rw [hD'v v hvw]
      exact hinv.sound v hvV
    · have hvw : v = a.node := by simpa using hvw
      subst hvw
      rw [hD'w]
      have hsu := hinv.sound u hinv.u_mem
      rw [hinv.u_depth] at hsu
      obtain ⟨c, hcw⟩ := hsu
      exact ⟨c + a.weight, CostWalk.snoc hcw hedge⟩
  · intro v hv k hwalk
    rcases List.mem_append.mp hv with hvV | hvw
    · have hvw : v ≠ a.node := fun h => hwV (h ▸ hvV)
      rw [hD'v v hvw]
      exact hinv.dmin v hvV k hwalk
    · have hvw : v = a.node := by simpa using hvw
      subst hvw
      rw [hD'w]
      by_contra hlt
      push_neg at hlt
      have hkd : k ≤ d := by omega
      obtain ⟨c, hcw⟩ := hwalk
      cases hcw with
      | refl => exact hwV hinv.s_mem
      | @snoc u3 vtail wt c' k' hwalk3 hmem3 =>
          have hclo : ∀ v2 ∈ st.visited, v2 ∉ st.queue →
              ((∀ k2, Walk g s v2 k2 → d ≤ k2) ∨
                ∀ a2 ∈ g.getNeighbors v2, a2.node ∈ st.visited) := by
            intro v2 hv2 hv2q
            by_cases hvu : v2 = u
            · subst hvu
              left
              intro k2 hw2
              have := hinv.dmin v2 hv2 k2 hw2
              rw [hinv.u_depth] at this
              exact this
            · exact Or.inr (hinv.closure_ex v2 hv2 hv2q hvu)
          have hu3 : u3 ∈ st.visited := by
            refine bfs_cpl hinv.s_mem hinv.dmin hclo k' (by omega) u3 ⟨c', hwalk3⟩ ?_
            intro q hq
            have := (hinv.q_bound q hq).1
            omega
          have hu3min := hinv.dmin u3 hu3 k' ⟨c', hwalk3⟩
          have hu3q : u3 ∉ st.queue := by
            intro hin
            have := (hinv.q_bound u3 hin).1
            omega
          have hu3u : u3 ≠ u := by
            intro h
            rw [h, hinv.u_depth] at hu3min
            omega
          exact hwV (hinv.closure_ex u3 hu3 hu3q hu3u ⟨a.node, wt⟩ hmem3)
  · intro v hv
    rcases List.mem_append.mp hv with hvQ | hvw
    · exact List.mem_append.mpr (Or.inl (hinv.q_sub v hvQ))
    · exact List.mem_append.mpr (Or.inr hvw)
  · rw [List.nodup_append]
    refine ⟨hinv.q_nodup, List.nodup_singleton _, ?_⟩
    intro x hx hx2
    have hx3 : x = a.node := by simpa using hx2
    exact hwV (hx3 ▸ hinv.q_sub x hx)
  · rw [List.pairwise_append]
    refine ⟨?_, List.pairwise_singleton _ _, ?_⟩
    · refine List.Pairwise.imp_of_mem ?_ hinv.q_pair
      intro x y hx hy hr
      have hxw : x ≠ a.node := fun h => hwV (h ▸ hinv.q_sub x hx)
      have hyw : y ≠ a.node := fun h => hwV (h ▸ hinv.q_sub y hy)
      rw [hD'v x hxw, hD'v y hyw]
      exact hr
    · intro x hx b hb
      have hbw : b = a.node := by simpa using hb
      subst hbw
      have hxw : x ≠ a.node := fun h => hwV (h ▸ hinv.q_sub x hx)
      rw [hD'v x hxw, hD'w]
      have := hinv.q_bound x hx
      omega
  · intro v hv
    rcases List.mem_append.mp hv with hvQ | hvw
    · have hvw : v ≠ a.node := fun h => hwV (h ▸ hinv.q_sub v hvQ)
      rw [hD'v v hvw]
      exact hinv.q_bound v hvQ
    · have hvw : v = a.node := by simpa using hvw
      subst hvw
      rw [hD'w]
      omega
  · intro v hv hvq hvu
    rcases List.mem_append.mp hv with hvV | hvw
    · have hvQ : v ∉ st.queue := fun h => hvq (List.mem_append.mpr (Or.inl h))
      intro a2 ha2
      exact List.mem_append.mpr (Or.inl (hinv.closure_ex v hvV hvQ hvu a2 ha2))
    · have hvw : v = a.node := by simpa using hvw
      exact absurd (List.mem_append.mpr (Or.inr (by simp [hvw]))) hvq
  · intro v
    rw [mapGet_mapSet]
    by_cases hvw : v = a.node
    · subst hvw
      simp
    · rw [if_neg hvw]
      rw [hinv.keys v]
      constructor
      · intro h
        exact List.mem_append.mpr (Or.inl h)
      · intro h
        rcases List.mem_append.mp h with h1 | h2
        · exact h1
        · exact absurd (by simpa using h2) hvw
  · intro v hv
    have hlen : (mapSet st.parent a.node (some u)).length = st.parent.length + 1 :=
      mapSet_length_fresh hwP _
    rw [hlen]
    rcases List.mem_append.mp hv with hvV | hvw
    · have hvw : v ≠ a.node := fun h => hwV (h ▸ hvV)
      rw [hD'v v hvw]
      have := hinv.depth_bound v hvV
      omega
    · have hvw : v = a.node := by simpa using hvw
      subst hvw
      rw [hD'w]
      have := hinv.depth_bound u hinv.u_mem
      rw [hinv.u_depth] at this
      omega
  · intro hv
    rcases List.mem_append.mp hv with hvV | hvw
    · rcases hinv.end_pend hvV with h1 | h2
      · exact Or.inl (List.mem_append.mpr (Or.inl h1))
      · exact Or.inr h2
    · exact Or.inl (List.mem_append.mpr (Or.inr hvw))
  · exact List.mem_append.mpr (Or.inl hinv.u_mem)
  · rw [hD'v u hw_u.symm]
    exact hinv.u_depth

theorem filter_fresh_lt {univ V : List NodeId} {w : NodeId}
    (hwu : w ∈ univ) (hwV : w ∉ V) :
    (univ.filter (fun x => !((V ++ [w]).contains x))).length <
      (univ.filter (fun x => !(V.contains x))).length := by
  have hpt : ∀ x ∈ univ, (!((V ++ [w]).contains x)) = ((!(x == w)) && !(V.contains x)) := by
    intro x _
    by_cases h1 : x ∈ V <;> by_cases h2 : x = w <;> simp [List.elem_iff, h1, h2]
  rw [List.filter_congr hpt, ← List.filter_filter]
  apply List.length_filter_lt_length_iff_exists.mpr
  refine ⟨w, List.mem_filter.mpr ⟨hwu, ?_⟩, by simp⟩
  simp [List.elem_iff, hwV]

/-- bfsExpand preserves the invariant, only appends to visited, ends with every
processed neighbor visited, and does not grow the loop measure. -/
theorem bfsExpand_inv {g : Graph} {s e u : NodeId} {d : ℕ} :
    ∀ (ns : List Adj) (st : BfsState) (D : NodeId → ℕ),
      (∀ a ∈ ns, a ∈ g.getNeighbors u) →
      BfsInvar g s e u d st D →
      ∃ D2 : NodeId → ℕ,
        BfsInvar g s e u d (bfsExpand u st ns) D2 ∧
        (∀ v ∈ st.visited, D2 v = D v) ∧
        (∃ fr, (bfsExpand u st ns).visited = st.visited ++ fr) ∧
        (∀ a ∈ ns, a.node ∈ (bfsExpand u st ns).visited) ∧
        bfsMes g s (bfsExpand u st ns) ≤ bfsMes g s st := by
  intro ns
  induction ns with
  | nil =>
      intro st D _ hinv
      exact ⟨D, hinv, fun v _ => rfl, ⟨[], by simp [bfsExpand]⟩, by simp, le_refl _⟩
  | cons a ns' ih =>
      intro st D hns hinv
      cases hc : st.visited.contains a.node with
      | true =>
          have hstep : bfsExpand u st (a :: ns') = bfsExpand u st ns' := by
            unfold bfsExpand
            rw [List.foldl_cons]
            congr 1
            dsimp only
            rw [if_pos hc]
          rw [hstep]
          obtain ⟨D2, h1, h2, ⟨fr, h3⟩, h4, h5⟩ :=
            ih st D (fun b hb => hns b (List.mem_cons_of_mem a hb)) hinv
          refine ⟨D2, h1, h2, ⟨fr, h3⟩, ?_, h5⟩
          intro b hb
          rcases List.mem_cons.mp hb with rfl | hb2
          · rw [h3]
            exact List.mem_append.mpr (Or.inl (mem_of_contains_true hc))
          · exact h4 b hb2
      | false =>
          have hwV : a.node ∉ st.visited := not_mem_of_contains_false hc
          have ha : a ∈ g.getNeighbors u := hns a (List.mem_cons_self a ns')
          have hstep : bfsExpand u st (a :: ns') = bfsExpand u
              ⟨st.visited ++ [a.node], mapSet st.parent a.node (some u),
                st.queue ++ [a.node]⟩ ns' := by
            unfold bfsExpand
            rw [List.foldl_cons]
            congr 1
            dsimp only
            rw [if_neg (by rw [hc]; exact Bool.false_ne_true)]
          rw [hstep]
          have hinv' := bfsStep_inv hinv a ha hwV
          obtain ⟨D2, h1, h2, ⟨fr, h3⟩, h4, h5⟩ :=
            ih _ _ (fun b hb => hns b (List.mem_cons_of_mem a hb)) hinv'
          refine ⟨D2, h1, ?_, ?_, ?_, ?_⟩
          · intro v hv
            rw [h2 v (List.mem_append.mpr (Or.inl hv))]
            have hvne : v ≠ a.node := by
              intro h
              rw [h] at hv
              exact hwV hv
            exact Function.update_noteq hvne _ _
          · exact ⟨[a.node] ++ fr, by rw [h3]; simp⟩
          · intro b hb
            rcases List.mem_cons.mp hb with rfl | hb2
            · rw [h3]
              exact List.mem_append.mpr (Or.inl (List.mem_append.mpr (Or.inr (by simp))))
            · exact h4 b hb2
          · refine le_trans h5 ?_
            unfold bfsMes
            dsimp only
            simp only [List.length_append, List.length_singleton]
            have hlt := @filter_fresh_lt (searchUniv g s) st.visited a.node
              (mem_searchUniv_of_adj s ha) hwV
            omega

theorem getLast?_cons_ne_nil {α : Type} (a : α) {t : List α} (h : t ≠ []) :
    (a :: t).getLast? = t.getLast? := by
  cases t with
  | nil => exact absurd rfl h
  | cons b t2 => rfl

/-- On an invariant-satisfying state with the reachable target still pending,
the bfs loop ends its trace with a done event carrying a minimum-edge path. -/
theorem bfsLoop_finds {g : Graph} {s e : NodeId} {k0 : ℕ} (hreach : Walk g s e k0) :
    ∀ (fuel : ℕ) (st : BfsState) (D : NodeId → ℕ),
      BfsLoopInv g s e st D →
      bfsMes g s st < fuel →
      ∃ p vis, (bfsLoop g e fuel st).getLast? = some (.done p vis) ∧
        IsEdgePath g s e p ∧
        (∃ k, Walk g s e k ∧ p.length = k + 1) ∧
        (∀ k, Walk g s e k → p.length ≤ k + 1) := by
  intro fuel
  induction fuel with
  | zero =>
      intro st D _ hmes
      omega
  | succ n ih =>
      intro st D hloopinv hmes
      obtain ⟨u, d, hinv, hclo_u, hep⟩ := hloopinv
      cases hq : st.queue with
      | nil =>
          exfalso
          have hcloL : ∀ a ∈ g.getNeighbors u, a.node ∈ st.visited := by
            rcases hclo_u with hl | hr
            · exact hl
            · rw [hq] at hr
              exact absurd hr (List.not_mem_nil u)
          have heV : e ∈ st.visited := by
            refine @bfs_cpl g s st.visited st.queue D (k0 + 1) hinv.s_mem hinv.dmin ?_ k0
              (by omega) e hreach ?_
            · intro v hv hvq
              by_cases hvu : v = u
              · subst hvu
                exact Or.inr hcloL
              · exact Or.inr (hinv.closure_ex v hv hvq hvu)
            · intro q hq2
              rw [hq] at hq2
              exact absurd hq2 (List.not_mem_nil q)
          have := hep heV
          rw [hq] at this
          exact List.not_mem_nil e this
      | cons u2 rest =>
          by_cases hue : u2 = e
          · subst hue
            have hloop : bfsLoop g u2 (n + 1) st =
                [BEvent.visit u2 st.visited (jsSet rest),
                  BEvent.done (reconstructPath st.parent u2) st.visited] := by
              rw [bfsLoop, hq]
              dsimp only
              rw [if_pos (rfl : u2 = u2)]
            have heV : u2 ∈ st.visited := hinv.q_sub u2 (by rw [hq]; exact List.mem_cons_self _ _)
            have hrec := @reconstructGo_spec g s st.parent D hinv.s_par hinv.s_depth
              (fun v hv hvs => by
                obtain ⟨p, hp, hpV, he2, hD2⟩ :=
                  hinv.par_struct v ((hinv.keys v).mp hv) hvs
                exact ⟨p, hp, (hinv.keys p).mpr hpV, he2, hD2⟩)
              (st.parent.length + 1) u2 ((hinv.keys u2).mpr heV)
              (by have := hinv.depth_bound u2 heV; omega)
            obtain ⟨hpath, hlen⟩ := hrec
            refine ⟨reconstructPath st.parent u2, st.visited, ?_, hpath, ?_, ?_⟩
            · rw [hloop]
              rfl
            · exact ⟨D u2, hinv.sound u2 heV, by rw [reconstructPath, hlen]⟩
            · intro k hk
              have := hinv.dmin u2 heV k hk
              rw [reconstructPath, hlen]
              omega
          · have hmid : BfsInvar g s e u2 (D u2) { st with queue := rest } D := by
              refine ⟨hinv.s_mem, hinv.s_par, hinv.s_depth, hinv.par_struct, hinv.sound,
                hinv.dmin, ?_, ?_, ?_, ?_, ?_, hinv.keys, hinv.depth_bound, ?_, ?_, rfl⟩
              · intro v hv
                exact hinv.q_sub v (by rw [hq]; exact List.mem_cons_of_mem u2 hv)
              · have := hinv.q_nodup
                rw [hq, List.nodup_cons] at this
                exact this.2
              · have := hinv.q_pair
                rw [hq, List.pairwise_cons] at this
                exact this.2
              · have := hinv.q_pair
                rw [hq, List.pairwise_cons] at this
                exact fun v hv => (this.1 v hv)
              · intro v hv hvq hvu
                have hvq2 : v ∉ st.queue := by
                  rw [hq]
                  intro hmem
                  rcases List.mem_cons.mp hmem with h1 | h2
                  · exact hvu h1
                  · exact hvq h2
                by_cases hvu2 : v = u
                · subst hvu2
                  rcases hclo_u with hl | hr
                  · exact hl
                  · exact absurd hr hvq2
                · exact hinv.closure_ex v hv hvq2 hvu2
              · intro hv
                have := hep hv
                rw [hq] at this
                rcases List.mem_cons.mp this with h1 | h2
                · exact Or.inr h1
                · exact Or.inl h2
              · exact hinv.q_sub u2 (by rw [hq]; exact List.mem_cons_self _ _)
            obtain ⟨D2, hinv2, hagree, ⟨fr, hfr⟩, hcov, hmes2⟩ :=
              bfsExpand_inv (g.getNeighbors u2) { st with queue := rest } D
                (fun a ha => ha) hmid
            have hloop : bfsLoop g e (n + 1) st = BEvent.visit u2 st.visited (jsSet rest) ::
                bfsLoop g e n (bfsExpand u2 { st with queue := rest } (g.getNeighbors u2)) := by
              rw [bfsLoop, hq]
              dsimp only
              rw [if_neg hue]
            have hloopinv2 : BfsLoopInv g s e
                (bfsExpand u2 { st with queue := rest } (g.getNeighbors u2)) D2 := by
              refine ⟨u2, D u2, hinv2, Or.inl hcov, ?_⟩
              intro hv
              rcases hinv2.end_pend hv with h1 | h2
              · exact h1
              · exact absurd h2.symm hue
            have hmeslt : bfsMes g s (bfsExpand u2 { st with queue := rest }
                (g.getNeighbors u2)) < n := by
              have h1 : bfsMes g s st = bfsMes g s { st with queue := rest } + 1 := by
                unfold bfsMes
                rw [hq]
                simp
                omega
              omega
            obtain ⟨p, vis, htrace, hpath, hex, hmin⟩ := ih _ D2 hloopinv2 hmeslt
            refine ⟨p, vis, ?_, hpath, hex, hmin⟩
            rw [hloop]
            rw [getLast?_cons_ne_nil _ ?_, htrace]
            intro hnil
            rw [hnil] at htrace
            exact Option.noConfusion htrace

/-- C4: for every graph and every start/end pair with the end reachable from
the start, the final Done event of bfs carries a genuine path from start to
end whose edge count is minimal among all walks, regardless of edge weights. -/
theorem bfs_shortest_edge_count {g : Graph} {s e : NodeId} (hreach : Reaches g s e) :
    ∃ p vis, (bfs g s e).getLast? = some (.done p vis) ∧
      IsEdgePath g s e p ∧
      (∃ k, Walk g s e k ∧ p.length = k + 1) ∧
      (∀ k, Walk g s e k → p.length ≤ k + 1) := by
  obtain ⟨c, k0, hcw⟩ := hreach
  have hinit : BfsLoopInv g s e ⟨[s], mapSet [] s none, [s]⟩ (fun _ => 0) := by
    refine ⟨s, 0, ⟨?_, ?_, rfl, ?_, ?_, ?_, ?_, ?_, ?_, ?_, ?_, ?_, ?_, ?_, ?_, rfl⟩,
      Or.inr (List.mem_singleton.mpr rfl), fun h => h⟩
    · exact List.mem_singleton.mpr rfl
    · simp [mapSet, mapGet]
    · intro v hv hvs
      exact absurd (List.mem_singleton.mp hv) hvs
    · intro v hv
      rw [List.mem_singleton.mp hv]
      exact ⟨0, CostWalk.refl⟩
    · intro v _ k _
      exact Nat.zero_le k
    · exact fun v h => h
    · exact List.nodup_singleton s
    · exact List.pairwise_singleton _ s
    · intro v _
      omega
    · intro v hv hvq
      exact absurd hv hvq
    · intro v
      constructor
      · intro h
        by_cases hvs : s = v
        · rw [← hvs]
          exact List.mem_singleton.mpr rfl
        · simp [mapSet, mapGet, hvs] at h
      · intro h
        rw [List.mem_singleton.mp h]
        simp [mapSet, mapGet]
    · intro v _
      simp [mapSet]
    · intro h
      exact Or.inl h
    · exact List.mem_singleton.mpr rfl
  have hmes0 : bfsMes g s ⟨[s], mapSet [] s none, [s]⟩ < (searchUniv g s).length + 1 := by
    unfold bfsMes
    dsimp only
    have h1 := @filter_fresh_lt (searchUniv g s) [] s
      (self_mem_searchUniv g s) (List.not_mem_nil s)
    simp only [List.nil_append] at h1
    have h2 : (searchUniv g s).filter (fun x => !(([] : List NodeId).contains x)) =
        searchUniv g s := by simp
    rw [h2] at h1
    simp only [List.length_singleton]
    omega
  exact bfsLoop_finds ⟨c, hcw⟩ _ _ (fun _ => 0) hinit hmes0

/-- A two-node graph with one (arbitrarily weighted) edge. -/
def gC4 : Graph :=
  ⟨[("a", ⟨"a", 0, 0, "", ""⟩), ("b", ⟨"b", 3, 4, "", ""⟩)],
    [("a", [⟨"b", 7⟩]), ("b", [⟨"a", 7⟩])]⟩

theorem bfs_shortest_edge_count_witness :
    Reaches gC4 "a" "b" ∧
      ∃ p vis, (bfs gC4 "a" "b").getLast? = some (.done p vis) ∧
        IsEdgePath gC4 "a" "b" p ∧
        (∃ k, Walk gC4 "a" "b" k ∧ p.length = k + 1) ∧
        (∀ k, Walk gC4 "a" "b" k → p.length ≤ k + 1) :=
  have hreach : Reaches gC4 "a" "b" :=
    ⟨0 + 7, 0 + 1, CostWalk.snoc CostWalk.refl (by decide)⟩
  ⟨hreach, bfs_shortest_edge_count hreach⟩

-- ============ C1 : dijkstra finds a minimum-cost path ============

/-- Every stored node record carries the key it is stored under (true of every
graph built through addNode, which sets `nodes.set(id, {id, ...})`). -/
def IdCoherent (g : Graph) : Prop :=
  ∀ p ∈ g.nodes, p.2.id = p.1

theorem mapGet_isSome_iff_mem_keys {α : Type} (m : List (NodeId × α)) (v : NodeId) :
    (mapGet m v).isSome ↔ v ∈ m.map (·.1) := by
  induction m with
  | nil => simp [mapGet]
  | cons p t ih =>
      obtain ⟨k, val⟩ := p
      by_cases h : k = v
      · subst h
        simp [mapGet]
      · simp only [mapGet, if_neg h, List.map_cons, List.mem_cons]
        rw [ih]
        constructor
        · exact fun h2 => Or.inr h2
        · intro h2
          rcases h2 with h3 | h3
          · exact absurd h3.symm h
          · exact h3

theorem foldl_topmap_get (l : List NodeData) :
    ∀ (m0 : List (NodeId × WithTop ℤ)) (v : NodeId),
      mapGet (l.foldl (fun m nd => mapSet m nd.id (⊤ : WithTop ℤ)) m0) v =
        if v ∈ l.map (·.id) then some ⊤ else mapGet m0 v := by
  induction l with
  | nil => intro m0 v; simp
  | cons nd t ih =>
      intro m0 v
      rw [List.foldl_cons, ih]
      by_cases hv : v ∈ t.map (·.id)
      · rw [if_pos hv, if_pos (by simp [hv])]
      · rw [if_neg hv]
        by_cases hnd : v = nd.id
        · rw [if_pos (by simp [hnd]), ← hnd, mapGet_mapSet_self]
        · have hmem : v ∉ (nd :: t).map (·.id) := by
            simp only [List.map_cons, List.mem_cons]
            push_neg
            exact ⟨hnd, hv⟩
          rw [if_neg hmem, mapGet_mapSet_ne _ hnd]

theorem dijInit_s (g : Graph) (s : NodeId) :
    mapGet (dijInitDist g s) s = some ((0 : ℤ) : WithTop ℤ) := by
  unfold dijInitDist
  rw [mapGet_mapSet_self]
  rfl

theorem dijInit_isSome {g : Graph} {v : NodeId} (s : NodeId) (hid : IdCoherent g)
    (h : (mapGet g.nodes v).isSome) : (mapGet (dijInitDist g s) v).isSome := by
  unfold dijInitDist
  by_cases hvs : v = s
  · subst hvs
    rw [mapGet_mapSet_self]
    rfl
  · rw [mapGet_mapSet_ne _ hvs, foldl_topmap_get]
    rw [mapGet_isSome_iff_mem_keys] at h
    have hmem : v ∈ g.getAllNodes.map (·.id) := by
      obtain ⟨p, hp, hpv⟩ := List.mem_map.mp h
      unfold Graph.getAllNodes
      rw [List.map_map]
      exact List.mem_map.mpr ⟨p, hp, by rw [Function.comp_apply, hid p hp, hpv]⟩
    rw [if_pos hmem]
    rfl

theorem dijInit_val {g : Graph} {s v : NodeId} {dv : WithTop ℤ}
    (h : mapGet (dijInitDist g s) v = some dv) (hv : v ≠ s) : dv = ⊤ := by
  unfold dijInitDist at h
  rw [mapGet_mapSet_ne _ hv, foldl_topmap_get] at h
  by_cases hm : v ∈ g.getAllNodes.map (·.id)
  · rw [if_pos hm] at h
    exact (Option.some.inj h).symm
  · rw [if_neg hm] at h
    exact absurd h (by simp [mapGet])

theorem mem_push {P V2 : Type} [LinearOrder P] {l : List (Entry P V2)} {e x : Entry P V2} :
    x ∈ MinHeap.push l e ↔ x ∈ l ∨ x = e := by
  rw [List.Perm.mem_iff (push_perm l e)]
  simp

theorem getNeighbors_length_le (g : Graph) (u : NodeId) :
    (g.getNeighbors u).length ≤ totalAdjLen g := by
  unfold Graph.getNeighbors totalAdjLen
  cases hm : mapGet g.edges u with
  | none => simp
  | some l =>
      simp only [Option.getD_some]
      have hmem : l.length ∈ (g.edges.map (·.2.length)) :=
        List.mem_map.mpr ⟨(u, l), mapGet_mem hm, rfl⟩
      exact List.single_le_sum (fun x _ => Nat.zero_le x) _ hmem

/-- The termination measure of the dijkstra loop. -/
def dijMes (g : Graph) (s : NodeId) (st : DijState) : ℕ :=
  ((searchUniv g s).filter (fun x => !(st.visited.contains x))).length * (totalAdjLen g + 1)
    + st.heap.length

/-- Per-node relaxation closure at `u`: each neighbor's distance entry is
bounded by `u`'s distance plus the edge weight. -/
def ClosureAt (g : Graph) (st : DijState) (u : NodeId) : Prop :=
  ∀ a ∈ g.getNeighbors u, ∀ du : ℤ,
    mapGet st.dist u = some ((du : ℤ) : WithTop ℤ) →
    ∃ dv, mapGet st.dist a.node = some dv ∧ dv ≤ ((du + a.weight : ℤ) : WithTop ℤ)

/-- Invariant of the dijkstra loop, exempting the node `x` whose neighbors are
currently being relaxed. -/
structure DijInvar (g : Graph) (s e x : NodeId) (st : DijState) : Prop where
  domain : ∀ v : NodeId, (mapGet g.nodes v).isSome → (mapGet st.dist v).isSome
  sound : ∀ v dv, mapGet st.dist v = some dv → dv ≠ ⊤ →
    ∃ c : ℤ, dv = ((c : ℤ) : WithTop ℤ) ∧ ∃ k, CostWalk g s v c k
  vis_exact : ∀ v ∈ st.visited, ∃ c : ℤ, mapGet st.dist v = some ((c : ℤ) : WithTop ℤ) ∧
    (∃ k, CostWalk g s v c k) ∧ (∀ c2 k2, CostWalk g s v c2 k2 → c ≤ c2)
  heap_sound : ∀ ent ∈ st.heap, ∃ dv, mapGet st.dist ent.node = some dv ∧
    dv ≤ ((ent.priority : ℤ) : WithTop ℤ)
  pending : ∀ v : NodeId, v ∉ st.visited → ∀ dv, mapGet st.dist v = some dv → dv ≠ ⊤ →
    ∃ ent ∈ st.heap, ent.node = v ∧ ((ent.priority : ℤ) : WithTop ℤ) ≤ dv
  closure_ex : ∀ u ∈ st.visited, u ≠ x → ClosureAt g st u
  dist_s : ∃ ds, mapGet st.dist s = some ds ∧ ds ≤ ((0 : ℤ) : WithTop ℤ)
  end_nv : e ∉ st.visited
  heapP : heapProp st.heap
  heap_univ : ∀ ent ∈ st.heap, ent.node ∈ searchUniv g s

/-- Loop-level invariant: the exempt node is either unvisited or already
closed. -/
def DijLoopInv (g : Graph) (s e : NodeId) (st : DijState) : Prop :=
  ∃ x, DijInvar g s e x st ∧ (x ∉ st.visited ∨ ClosureAt g st x)

/-- The cut argument: every walk either ends in a visited node or is
intercepted by a heap entry whose priority is at most the walk's cost. -/
theorem dij_cut {g : Graph} {s e x : NodeId} {st : DijState}
    (hnn : NonnegWeights g) (hinv : DijInvar g s e x st)
    (hxc : x ∉ st.visited ∨ ClosureAt g st x) :
    ∀ {v : NodeId} {c : ℤ} {k : ℕ}, CostWalk g s v c k →
      v ∈ st.visited ∨ ∃ ent ∈ st.heap, ent.priority ≤ c := by
  have hfull : ∀ u ∈ st.visited, ClosureAt g st u := by
    intro u hu
    by_cases hux : u = x
    · subst hux
      rcases hxc with h1 | h2
      · exact absurd hu h1
      · exact h2
    · exact hinv.closure_ex u hu hux
  intro v c k hcw
  induction hcw with
  | refl =>
      by_cases hs : s ∈ st.visited
      · exact Or.inl hs
      · obtain ⟨ds, hds, hds0⟩ := hinv.dist_s
        have hfin : ds ≠ ⊤ := ne_top_of_le_ne_top WithTop.coe_ne_top hds0
        obtain ⟨ent, hentH, hentn, hentp⟩ := hinv.pending s hs ds hds hfin
        refine Or.inr ⟨ent, hentH, ?_⟩
        have h1 : ((ent.priority : ℤ) : WithTop ℤ) ≤ ((0 : ℤ) : WithTop ℤ) :=
          le_trans hentp hds0
        exact_mod_cast h1
  | @snoc u v2 w c' k' hw hmem ih =>
      have hwnn : 0 ≤ w := hnn u ⟨v2, w⟩ hmem
      rcases ih with huV | ⟨ent, hentH, hentp⟩
      · obtain ⟨cu, hcu, _hach, hmin⟩ := hinv.vis_exact u huV
        have hcle : cu ≤ c' := hmin c' k' hw
        obtain ⟨dv, hdv, hdvle⟩ := hfull u huV ⟨v2, w⟩ hmem cu hcu
        by_cases hv2 : v2 ∈ st.visited
        · exact Or.inl hv2
        · have hfin : dv ≠ ⊤ := ne_top_of_le_ne_top WithTop.coe_ne_top hdvle
          obtain ⟨ent2, hent2H, hent2n, hent2p⟩ := hinv.pending v2 hv2 dv hdv hfin
          refine Or.inr ⟨ent2, hent2H, ?_⟩
          have h1 : ((ent2.priority : ℤ) : WithTop ℤ) ≤ ((cu + w : ℤ) : WithTop ℤ) :=
            le_trans hent2p hdvle
          have h2 : ent2.priority ≤ cu + w := by exact_mod_cast h1
          omega
      · exact Or.inr ⟨ent, hentH, by omega⟩

/-- Popping a fresh node from the heap yields its exact minimal distance. -/
theorem dij_pop_fresh {g : Graph} {s e x : NodeId} {st : DijState}
    (hnn : NonnegWeights g) (hinv : DijInvar g s e x st)
    (hxc : x ∉ st.visited ∨ ClosureAt g st x)
    {top : Entry ℤ NodeId} {rest : List (Entry ℤ NodeId)}
    (hpop : MinHeap.pop st.heap = some (top, rest))
    (hfresh : top.node ∉ st.visited) :
    mapGet st.dist top.node = some ((top.priority : ℤ) : WithTop ℤ) ∧
    (∃ k, CostWalk g s top.node top.priority k) ∧
    (∀ c2 k2, CostWalk g s top.node c2 k2 → top.priority ≤ c2) := by
  obtain ⟨hpr, hperm, hmin⟩ := pop_correct hinv.heapP hpop
  have htopH : top ∈ st.heap := hperm.mem_iff.mp (List.mem_cons_self _ _)
  obtain ⟨dv, hdv, hdvle⟩ := hinv.heap_sound top htopH
  have hfin : dv ≠ ⊤ := ne_top_of_le_ne_top WithTop.coe_ne_top hdvle
  obtain ⟨cx, hcx, k1, hwalk⟩ := hinv.sound top.node dv hdv hfin
  have hminimal : ∀ c2 k2, CostWalk g s top.node c2 k2 → top.priority ≤ c2 := by
    intro c2 k2 hw2
    rcases dij_cut hnn hinv hxc hw2 with hV | ⟨ent, hentH, hentp⟩
    · exact absurd hV hfresh
    · have hent2 : ent ∈ top :: rest := hperm.mem_iff.mpr hentH
      rcases List.mem_cons.mp hent2 with rfl | hentrest
      · exact hentp
      · have := hmin ent hentrest
        omega
  have hcxpr : cx = top.priority := by
    have h1 : cx ≤ top.priority := by
      rw [hcx] at hdvle
      exact_mod_cast hdvle
    have h2 : top.priority ≤ cx := hminimal cx k1 hwalk
    omega
  refine ⟨?_, ⟨k1, hcxpr ▸ hwalk⟩, hminimal⟩
  rw [hdv, hcx, hcxpr]

/-- Marking a freshly popped (non-end) node preserves the invariant, with the
exemption moving to the popped node. -/
theorem dij_mark_inv {g : Graph} {s e x : NodeId} {st : DijState}
    (hnn : NonnegWeights g) (hinv : DijInvar g s e x st)
    (hxc : x ∉ st.visited ∨ ClosureAt g st x)
    {top : Entry ℤ NodeId} {rest : List (Entry ℤ NodeId)}
    (hpop : MinHeap.pop st.heap = some (top, rest))
    (hfresh : top.node ∉ st.visited) (hne : top.node ≠ e) :
    DijInvar g s e top.node
      { st with visited := st.visited ++ [top.node], heap := rest } := by
  obtain ⟨hpr, hperm, hmin⟩ := pop_correct hinv.heapP hpop
  obtain ⟨hexact, hach, hminimal⟩ := dij_pop_fresh hnn hinv hxc hpop hfresh
  have hrestH : ∀ ent ∈ rest, ent ∈ st.heap :=
    fun ent h => hperm.mem_iff.mp (List.mem_cons_of_mem top h)
  refine ⟨hinv.domain, hinv.sound, ?_, ?_, ?_, ?_, hinv.dist_s, ?_, hpr, ?_⟩
  · intro v hv
    rcases List.mem_append.mp hv with hvV | hvw
    · exact hinv.vis_exact v hvV
    · have hvw : v = top.node := by simpa using hvw
      subst hvw
      exact ⟨top.priority, hexact, hach, hminimal⟩
  · intro ent hent
    exact hinv.heap_sound ent (hrestH ent hent)
  · intro v hv dv hdv hfin
    have hvV : v ∉ st.visited := fun h => hv (List.mem_append.mpr (Or.inl h))
    have hvx : v ≠ top.node := fun h => hv (List.mem_append.mpr (Or.inr (by simp [h])))
    obtain ⟨ent, hentH, hentn, hentp⟩ := hinv.pending v hvV dv hdv hfin
    have hent2 : ent ∈ top :: rest := hperm.mem_iff.mpr hentH
    rcases List.mem_cons.mp hent2 with rfl | hentrest
    · exact absurd hentn.symm hvx
    · exact ⟨ent, hentrest, hentn, hentp⟩
  · intro u hu hux
    rcases List.mem_append.mp hu with huV | huw
    · by_cases huxold : u = x
      · subst huxold
        rcases hxc with h1 | h2
        · exact absurd huV h1
        · exact h2
      · exact hinv.closure_ex u huV huxold
    · exact absurd (by simpa using huw) hux
  · intro hv
    rcases List.mem_append.mp hv with hvV | hvw
    · exact hinv.end_nv hvV
    · have h2 : e = top.node := by simpa using hvw
      exact hne h2.symm
  · intro ent hent
    exact hinv.heap_univ ent (hrestH ent hent)

/-- Lazily discarding an already-visited heap entry preserves the invariant. -/
theorem dij_skip_inv {g : Graph} {s e x : NodeId} {st : DijState}
    (hinv : DijInvar g s e x st)
    {top : Entry ℤ NodeId} {rest : List (Entry ℤ NodeId)}
    (hpop : MinHeap.pop st.heap = some (top, rest))
    (hvis : top.node ∈ st.visited) :
    DijInvar g s e x { st with heap := rest } := by
  obtain ⟨hpr, hperm, hmin⟩ := pop_correct hinv.heapP hpop
  have hrestH : ∀ ent ∈ rest, ent ∈ st.heap :=
    fun ent h => hperm.mem_iff.mp (List.mem_cons_of_mem top h)
  refine ⟨hinv.domain, hinv.sound, hinv.vis_exact, ?_, ?_, hinv.closure_ex, hinv.dist_s,
    hinv.end_nv, hpr, ?_⟩
  · intro ent hent
    exact hinv.heap_sound ent (hrestH ent hent)
  · intro v hv dv hdv hfin
    obtain ⟨ent, hentH, hentn, hentp⟩ := hinv.pending v hv dv hdv hfin
    have hent2 : ent ∈ top :: rest := hperm.mem_iff.mpr hentH
    rcases List.mem_cons.mp hent2 with rfl | hentrest
    · exact absurd (hentn ▸ hvis) hv
    · exact ⟨ent, hentrest, hentn, hentp⟩
  · intro ent hent
    exact hinv.heap_univ ent (hrestH ent hent)

theorem push_length {P V2 : Type} [LinearOrder P] (l : List (Entry P V2)) (e : Entry P V2) :
    (MinHeap.push l e).length = l.length + 1 := by
  have := (push_perm l e).length_eq
  simpa using this

/-- A successful relaxation of one unvisited neighbor preserves the invariant. -/
theorem dijStep_inv {g : Graph} {s e xn : NodeId} {cd : ℤ} {st : DijState}
    (hinv : DijInvar g s e xn st) (a : Adj) (ha : a ∈ g.getNeighbors xn)
    (hxv : xn ∈ st.visited)
    (hxd : mapGet st.dist xn = some ((cd : ℤ) : WithTop ℤ))
    (hach : ∃ k, CostWalk g s xn cd k)
    {d : WithTop ℤ} (hd : mapGet st.dist a.node = some d)
    (hav : a.node ∉ st.visited)
    (hlt : ((cd + a.weight : ℤ) : WithTop ℤ) < d) :
    DijInvar g s e xn
      { st with dist := mapSet st.dist a.node ((cd + a.weight : ℤ) : WithTop ℤ),
                parent := mapSet st.parent a.node (some xn),
                heap := MinHeap.push st.heap ⟨cd + a.weight, a.node⟩ } := by
  have hxa : xn ≠ a.node := fun h => hav (h ▸ hxv)
  have hwalk : ∃ k, CostWalk g s a.node (cd + a.weight) k := by
    obtain ⟨k, hk⟩ := hach
    exact ⟨k + 1, CostWalk.snoc hk ha⟩
  refine ⟨?_, ?_, ?_, ?_, ?_, ?_, ?_, hinv.end_nv, ?_, ?_⟩
  · intro v hv
    rw [mapGet_mapSet]
    by_cases hva : v = a.node
    · rw [if_pos hva]
      rfl
    · rw [if_neg hva]
      exact hinv.domain v hv
  · intro v dv hdv hfin
    rw [mapGet_mapSet] at hdv
    by_cases hva : v = a.node
    · rw [if_pos hva] at hdv
      subst hva
      exact ⟨cd + a.weight, (Option.some.inj hdv).symm, hwalk⟩
    · rw [if_neg hva] at hdv
      exact hinv.sound v dv hdv hfin
  · intro v hv
    obtain ⟨c, hc, hach2, hmin2⟩ := hinv.vis_exact v hv
    have hva : v ≠ a.node := fun h => hav (h ▸ hv)
    exact ⟨c, by rw [mapGet_mapSet, if_neg hva]; exact hc, hach2, hmin2⟩
  · intro ent hent
    rw [mem_push] at hent
    rcases hent with hold | hnew
    · obtain ⟨dv, hdv, hdvle⟩ := hinv.heap_sound ent hold
      by_cases hva : ent.node = a.node
      · rw [hva] at hdv
        rw [hd] at hdv
        cases Option.some.inj hdv
        refine ⟨((cd + a.weight : ℤ) : WithTop ℤ), ?_, ?_⟩
        · rw [mapGet_mapSet, if_pos hva]
        · exact le_trans (le_of_lt hlt) hdvle
      · exact ⟨dv, by rw [mapGet_mapSet, if_neg hva]; exact hdv, hdvle⟩
    · subst hnew
      refine ⟨((cd + a.weight : ℤ) : WithTop ℤ), ?_, le_refl _⟩
      rw [mapGet_mapSet, if_pos rfl]
  · intro v hv dv hdv hfin
    rw [mapGet_mapSet] at hdv
    by_cases hva : v = a.node
    · rw [if_pos hva] at hdv
      refine ⟨⟨cd + a.weight, a.node⟩, mem_push.mpr (Or.inr rfl), hva.symm, ?_⟩
      rw [← Option.some.inj hdv]
    · rw [if_neg hva] at hdv
      obtain ⟨ent, hentH, hentn, hentp⟩ := hinv.pending v hv dv hdv hfin
      exact ⟨ent, mem_push.mpr (Or.inl hentH), hentn, hentp⟩
  · intro u hu hux a2 ha2 du hdu
    have hua : u ≠ a.node := fun h => hav (h ▸ hu)
    rw [mapGet_mapSet, if_neg hua] at hdu
    obtain ⟨dv, hdv, hdvle⟩ := hinv.closure_ex u hu hux a2 ha2 du hdu
    by_cases hva : a2.node = a.node
    · refine ⟨((cd + a.weight : ℤ) : WithTop ℤ), by rw [mapGet_mapSet, if_pos hva], ?_⟩
      rw [hva] at hdv
      rw [hd] at hdv
      cases Option.some.inj hdv
      exact le_trans (le_of_lt hlt) hdvle
    · exact ⟨dv, by rw [mapGet_mapSet, if_neg hva]; exact hdv, hdvle⟩
  · obtain ⟨ds, hds, hds0⟩ := hinv.dist_s
    by_cases hsa : s = a.node
    · refine ⟨((cd + a.weight : ℤ) : WithTop ℤ), by rw [mapGet_mapSet, if_pos hsa], ?_⟩
      rw [hsa] at hds
      rw [hd] at hds
      cases Option.some.inj hds
      exact le_trans (le_of_lt hlt) hds0
    · exact ⟨ds, by rw [mapGet_mapSet, if_neg hsa]; exact hds, hds0⟩
  · exact push_heapProp hinv.heapP _
  · intro ent hent
    rw [mem_push] at hent
    rcases hent with hold | hnew
    · exact hinv.heap_univ ent hold
    · subst hnew
      exact mem_searchUniv_of_adj s ha

/-- The relaxation fold preserves the invariant, does not change the visited
set or the current node's distance, only lowers distances, covers every
processed neighbor, and pushes at most one entry per neighbor. -/
theorem dijRelax_inv {g : Graph} {s e xn : NodeId} {cd : ℤ}
    (hwf : WellFormed g)
    (hmin : ∀ c2 k2, CostWalk g s xn c2 k2 → cd ≤ c2)
    (hach : ∃ k, CostWalk g s xn cd k) :
    ∀ (ns : List Adj) (st : DijState),
      (∀ a ∈ ns, a ∈ g.getNeighbors xn) →
      DijInvar g s e xn st →
      xn ∈ st.visited →
      mapGet st.dist xn = some ((cd : ℤ) : WithTop ℤ) →
      DijInvar g s e xn (dijRelax xn cd st ns) ∧
      (dijRelax xn cd st ns).visited = st.visited ∧
      mapGet (dijRelax xn cd st ns).dist xn = some ((cd : ℤ) : WithTop ℤ) ∧
      (∀ v, (mapGet st.dist v).isSome → (mapGet (dijRelax xn cd st ns).dist v).isSome) ∧
      (∀ v dv2, mapGet (dijRelax xn cd st ns).dist v = some dv2 →
        ∃ dv, mapGet st.dist v = some dv ∧ dv2 ≤ dv) ∧
      (∀ a ∈ ns, ∃ dv, mapGet (dijRelax xn cd st ns).dist a.node = some dv ∧
        dv ≤ ((cd + a.weight : ℤ) : WithTop ℤ)) ∧
      (dijRelax xn cd st ns).heap.length ≤ st.heap.length + ns.length := by
  intro ns
  induction ns with
  | nil =>
      intro st _ hinv hxv hxd
      exact ⟨hinv, rfl, hxd, fun v h => h, fun v dv2 h => ⟨dv2, h, le_refl _⟩,
        by simp, le_refl _⟩
  | cons a ns' ih =>
      intro st hns hinv hxv hxd
      have ha : a ∈ g.getNeighbors xn := hns a (List.mem_cons_self a ns')
      have hnstail : ∀ b ∈ ns', b ∈ g.getNeighbors xn :=
        fun b hb => hns b (List.mem_cons_of_mem a hb)
      cases hc : st.visited.contains a.node with
      | true =>
          have hav : a.node ∈ st.visited := mem_of_contains_true hc
          have hstep : dijRelax xn cd st (a :: ns') = dijRelax xn cd st ns' := by
            unfold dijRelax
            rw [List.foldl_cons]
            congr 1
            dsimp only
            rw [if_pos hc]
          rw [hstep]
          obtain ⟨h1, h2, h3, h4, h5, h6, h7⟩ := ih st hnstail hinv hxv hxd
          refine ⟨h1, h2, h3, h4, h5, ?_, by simp only [List.length_cons]; omega⟩
          intro b hb
          rcases List.mem_cons.mp hb with rfl | hb2
          · obtain ⟨c, hcd2, hach2, hmin2⟩ := hinv.vis_exact b.node hav
            have hble : c ≤ cd + b.weight := by
              obtain ⟨k, hk⟩ := hach
              exact hmin2 (cd + b.weight) (k + 1) (CostWalk.snoc hk ha)
            have hcd2' : (mapGet (dijRelax xn cd st ns').dist b.node).isSome := by
              apply h4
              rw [hcd2]
              rfl
            obtain ⟨dvf, hdvf⟩ := Option.isSome_iff_exists.mp hcd2'
            obtain ⟨dvm, hdvm, hdvle⟩ := h5 b.node dvf hdvf
            rw [hcd2] at hdvm
            cases Option.some.inj hdvm
            refine ⟨dvf, hdvf, le_trans hdvle ?_⟩
            exact_mod_cast hble
          · exact h6 b hb2
      | false =>
          have hav : a.node ∉ st.visited := not_mem_of_contains_false hc
          have hdsome : (mapGet st.dist a.node).isSome :=
            hinv.domain a.node (hwf xn a ha)
          obtain ⟨d, hd⟩ := Option.isSome_iff_exists.mp hdsome
          by_cases hlt : ((cd + a.weight : ℤ) : WithTop ℤ) < d
          · have hstep : dijRelax xn cd st (a :: ns') = dijRelax xn cd
                { st with dist := mapSet st.dist a.node ((cd + a.weight : ℤ) : WithTop ℤ),
                          parent := mapSet st.parent a.node (some xn),
                          heap := MinHeap.push st.heap ⟨cd + a.weight, a.node⟩ } ns' := by
              unfold dijRelax
              rw [List.foldl_cons]
              congr 1
              dsimp only
              rw [if_neg (by rw [hc]; exact Bool.false_ne_true), hd]
              dsimp only
              rw [if_pos hlt]
            rw [hstep]
            have hinv2 := dijStep_inv hinv a ha hxv hxd hach hd hav hlt
            have hxa : xn ≠ a.node := fun h => hav (h ▸ hxv)
            have hxd2 : mapGet (mapSet st.dist a.node
                ((cd + a.weight : ℤ) : WithTop ℤ)) xn = some ((cd : ℤ) : WithTop ℤ) := by
              rw [mapGet_mapSet, if_neg hxa]
              exact hxd
            obtain ⟨h1, h2, h3, h4, h5, h6, h7⟩ := ih _ hnstail hinv2 hxv hxd2
            refine ⟨h1, h2, h3, ?_, ?_, ?_, ?_⟩
            · intro v hv
              apply h4
              rw [mapGet_mapSet]
              by_cases hva : v = a.node
              · rw [if_pos hva]
                rfl
              · rw [if_neg hva]
                exact hv
            · intro v dv2 hdv2
              obtain ⟨dvm, hdvm, hdvle⟩ := h5 v dv2 hdv2
              rw [mapGet_mapSet] at hdvm
              by_cases hva : v = a.node
              · rw [if_pos hva] at hdvm
                refine ⟨d, by rw [hva]; exact hd, ?_⟩
                rw [← Option.some.inj hdvm] at hdvle
                exact le_trans hdvle (le_of_lt hlt)
              · rw [if_neg hva] at hdvm
                exact ⟨dvm, hdvm, hdvle⟩
            · intro b hb
              rcases List.mem_cons.mp hb with rfl | hb2
              · have hmid : (mapGet (mapSet st.dist b.node
                    ((cd + b.weight : ℤ) : WithTop ℤ)) b.node).isSome := by
                  rw [mapGet_mapSet, if_pos rfl]
                  rfl
                have hsm := h4 b.node hmid
                obtain ⟨dvf, hdvf⟩ := Option.isSome_iff_exists.mp hsm
                obtain ⟨dvm, hdvm, hdvle⟩ := h5 b.node dvf hdvf
                rw [mapGet_mapSet, if_pos rfl] at hdvm
                refine ⟨dvf, hdvf, ?_⟩
                rw [← Option.some.inj hdvm] at hdvle
                exact hdvle
              · exact h6 b hb2
            · rw [push_length] at h7
              simp only [List.length_cons]
              omega
          · have hstep : dijRelax xn cd st (a :: ns') = dijRelax xn cd st ns' := by
              unfold dijRelax
              rw [List.foldl_cons]
              congr 1
              dsimp only
              rw [if_neg (by rw [hc]; exact Bool.false_ne_true), hd]
              dsimp only
              rw [if_neg hlt]
            rw [hstep]
            obtain ⟨h1, h2, h3, h4, h5, h6, h7⟩ := ih st hnstail hinv hxv hxd
            refine ⟨h1, h2, h3, h4, h5, ?_, by simp only [List.length_cons]; omega⟩
            intro b hb
            rcases List.mem_cons.mp hb with rfl | hb2
            · have hsm : (mapGet (dijRelax xn cd st ns').dist b.node).isSome := by
                apply h4
                rw [hd]
                rfl
              obtain ⟨dvf, hdvf⟩ := Option.isSome_iff_exists.mp hsm
              obtain ⟨dvm, hdvm, hdvle⟩ := h5 b.node dvf hdvf
              rw [hd] at hdvm
              cases Option.some.inj hdvm
              exact ⟨dvf, hdvf, le_trans hdvle (not_lt.mp hlt)⟩
            · exact h6 b hb2

theorem pop_none_iff_nil {P V2 : Type} [LinearOrder P] {l : List (Entry P V2)}
    (h : MinHeap.pop l = none) : l = [] := by
  cases l with
  | nil => rfl
  | cons a t =>
      cases t with
      | nil => exact absurd h (by simp [MinHeap.pop])
      | cons b t2 => exact absurd h (by simp [MinHeap.pop])

/-- On an invariant-satisfying state with the reachable end still pending, the
dijkstra loop ends its trace with a Done event carrying the minimum cost. -/
theorem dijLoop_finds {g : Graph} {s e : NodeId} {c0 : ℤ} {k0 : ℕ}
    (hwf : WellFormed g) (hnn : NonnegWeights g) (hreach : CostWalk g s e c0 k0) :
    ∀ (fuel : ℕ) (st : DijState),
      DijLoopInv g s e st →
      dijMes g s st < fuel →
      ∃ p vis c, (dijLoop g e fuel st).getLast? =
          some (.done p vis ((c : ℤ) : WithTop ℤ)) ∧
        (∃ k, CostWalk g s e c k) ∧
        (∀ c2 k2, CostWalk g s e c2 k2 → c ≤ c2) := by
  intro fuel
  induction fuel with
  | zero =>
      intro st _ hmes
      omega
  | succ n ih =>
      intro st hloopinv hmes
      obtain ⟨x, hinv, hxc⟩ := hloopinv
      cases hpop : MinHeap.pop st.heap with
      | none =>
          exfalso
          have hemp : st.heap = [] := pop_none_iff_nil hpop
          rcases dij_cut hnn hinv hxc hreach with hV | ⟨ent, hentH, _⟩
          · exact hinv.end_nv hV
          · rw [hemp] at hentH
            exact List.not_mem_nil ent hentH
      | some pr2 =>
      obtain ⟨top, rest⟩ := pr2
      have hlen_heap : st.heap.length = rest.length + 1 := by
        have h2 := (pop_correct hinv.heapP hpop).2.1.length_eq
        simpa using h2.symm
      cases hvc : st.visited.contains top.node with
      | true =>
          have hloop : dijLoop g e (n + 1) st = dijLoop g e n { st with heap := rest } := by
            rw [dijLoop, hpop]
            dsimp only
            rw [if_pos hvc]
          rw [hloop]
          refine ih _ ⟨x, dij_skip_inv hinv hpop (mem_of_contains_true hvc), ?_⟩ ?_
          · rcases hxc with h1 | h2
            · exact Or.inl h1
            · exact Or.inr h2
          · unfold dijMes at hmes ⊢
            dsimp only
            omega
      | false =>
          have hfresh : top.node ∉ st.visited := not_mem_of_contains_false hvc
          obtain ⟨hexact, hach, hminimal⟩ := dij_pop_fresh hnn hinv hxc hpop hfresh
          by_cases hte : top.node = e
          · have hloop : dijLoop g e (n + 1) st =
                [DEvent.visit top.node (st.visited ++ [top.node])
                    ({ st with visited := st.visited ++ [top.node], heap := rest }).dist,
                  DEvent.done (reconstructPath st.parent e) (st.visited ++ [top.node])
                    ((mapGet st.dist e).getD ⊤)] := by
              rw [dijLoop, hpop]
              dsimp only
              rw [if_neg (by rw [hvc]; exact Bool.false_ne_true)]
              rw [if_pos hte]
            rw [hte] at hexact hach hminimal
            refine ⟨reconstructPath st.parent e, st.visited ++ [top.node], top.priority,
              ?_, hach, hminimal⟩
            rw [hloop]
            show some _ = _
            rw [hexact]
            rfl
          · have hmid := dij_mark_inv hnn hinv hxc hpop hfresh hte
            have hxv1 : top.node ∈ st.visited ++ [top.node] :=
              List.mem_append.mpr (Or.inr (List.mem_singleton.mpr rfl))
            obtain ⟨hinv2, hvis2, hxd2, h4, h5, hcov, hlenr⟩ :=
              dijRelax_inv hwf hminimal hach (g.getNeighbors top.node)
                { st with visited := st.visited ++ [top.node], heap := rest }
                (fun a ha => ha) hmid hxv1 hexact
            have hloop : dijLoop g e (n + 1) st = DEvent.visit top.node
                  (st.visited ++ [top.node])
                  ({ st with visited := st.visited ++ [top.node], heap := rest }).dist ::
                dijLoop g e n (dijRelax top.node top.priority
                  { st with visited := st.visited ++ [top.node], heap := rest }
                  (g.getNeighbors top.node)) := by
              rw [dijLoop, hpop]
              dsimp only
              rw [if_neg (by rw [hvc]; exact Bool.false_ne_true)]
              rw [if_neg hte]
            have hloopinv2 : DijLoopInv g s e (dijRelax top.node top.priority
                { st with visited := st.visited ++ [top.node], heap := rest }
                (g.getNeighbors top.node)) := by
              refine ⟨top.node, hinv2, Or.inr ?_⟩
              intro a ha du hdu
              rw [hxd2] at hdu
              have hdu2 : top.priority = du := by
                have h3 := Option.some.inj hdu
                exact_mod_cast h3
              obtain ⟨dv, hdv, hdvle⟩ := hcov a ha
              exact ⟨dv, hdv, by rw [← hdu2]; exact hdvle⟩
            have hmes2 : dijMes g s (dijRelax top.node top.priority
                { st with visited := st.visited ++ [top.node], heap := rest }
                (g.getNeighbors top.node)) < n := by
              have htopu : top.node ∈ searchUniv g s := by
                refine hinv.heap_univ top ?_
                exact ((pop_correct hinv.heapP hpop).2.1).mem_iff.mp (List.mem_cons_self _ _)
              have hflt := @filter_fresh_lt (searchUniv g s) st.visited top.node
                htopu hfresh
              have hnl := getNeighbors_length_le g top.node
              unfold dijMes at hmes ⊢
              rw [hvis2]
              dsimp only
              dsimp only at hlenr
              have hmul := Nat.mul_le_mul_right (totalAdjLen g + 1)
                (Nat.succ_le_of_lt hflt)
              rw [Nat.succ_mul] at hmul
              omega
            obtain ⟨p, vis, c, htrace, hach2, hmin2⟩ := ih _ hloopinv2 hmes2
            refine ⟨p, vis, c, ?_, hach2, hmin2⟩
            rw [hloop]
            rw [getLast?_cons_ne_nil _ ?_, htrace]
            intro hnil
            rw [hnil] at htrace
            exact Option.noConfusion htrace

theorem dij_init_inv {g : Graph} (s e : NodeId) (hid : IdCoherent g) :
    DijLoopInv g s e ⟨dijInitDist g s, mapSet [] s none, [], MinHeap.push [] ⟨0, s⟩⟩ := by
  have hheap : MinHeap.push ([] : List (Entry ℤ NodeId)) ⟨0, s⟩ = [⟨0, s⟩] := by
    simp [MinHeap.push, bubbleUp]
  refine ⟨s, ⟨?_, ?_, ?_, ?_, ?_, ?_, ?_, ?_, ?_, ?_⟩, Or.inl (List.not_mem_nil s)⟩
  · intro v hv
    exact dijInit_isSome s hid hv
  · intro v dv hdv hfin
    by_cases hvs : v = s
    · subst hvs
      rw [dijInit_s] at hdv
      exact ⟨0, (Option.some.inj hdv).symm, 0, CostWalk.refl⟩
    · exact absurd (dijInit_val hdv hvs) hfin
  · intro v hv
    exact absurd hv (List.not_mem_nil v)
  · intro ent hent
    rw [hheap, List.mem_singleton] at hent
    subst hent
    exact ⟨((0 : ℤ) : WithTop ℤ), dijInit_s g s, le_refl _⟩
  · intro v _ dv hdv hfin
    by_cases hvs : v = s
    · subst hvs
      refine ⟨⟨0, v⟩, by rw [hheap]; exact List.mem_singleton.mpr rfl, rfl, ?_⟩
      rw [dijInit_s] at hdv
      rw [← Option.some.inj hdv]
    · exact absurd (dijInit_val hdv hvs) hfin
  · intro u hu
    exact absurd hu (List.not_mem_nil u)
  · exact ⟨((0 : ℤ) : WithTop ℤ), dijInit_s g s, le_refl _⟩
  · exact List.not_mem_nil e
  · rw [hheap]
    intro j hj hj0
    simp at hj
    omega
  · intro ent hent
    rw [hheap, List.mem_singleton] at hent
    subst hent
    exact self_mem_searchUniv g s

theorem dij_init_mes (g : Graph) (s : NodeId) :
    dijMes g s ⟨dijInitDist g s, mapSet [] s none, [], MinHeap.push [] ⟨0, s⟩⟩ <
      dijFuel g s := by
  unfold dijMes dijFuel
  dsimp only
  rw [show MinHeap.push ([] : List (Entry ℤ NodeId)) ⟨0, s⟩ = [⟨0, s⟩] by
    simp [MinHeap.push, bubbleUp]]
  have h1 : (searchUniv g s).filter (fun x => !(([] : List NodeId).contains x)) =
      searchUniv g s := by simp
  rw [h1]
  simp only [List.length_singleton]
  omega

/-- The general half of C1: on a well-formed graph with non-negative weights,
the final Done event of dijkstra carries the exact minimum walk cost. -/
theorem dijkstra_minimal {g : Graph} {s e : NodeId}
    (hwf : WellFormed g) (hid : IdCoherent g) (hnn : NonnegWeights g)
    (hreach : Reaches g s e) :
    ∃ p vis c, (dijkstra g s e).getLast? = some (.done p vis ((c : ℤ) : WithTop ℤ)) ∧
      (∃ k, CostWalk g s e c k) ∧ (∀ c2 k2, CostWalk g s e c2 k2 → c ≤ c2) := by
  obtain ⟨c0, k0, hcw⟩ := hreach
  unfold dijkstra
  exact dijLoop_finds hwf hnn hcw _ _ (dij_init_inv s e hid) (dij_init_mes g s)

theorem dijLoop_step_relax {g : Graph} {e : NodeId} {n : ℕ} {st : DijState}
    {top : Entry ℤ NodeId} {rest : List (Entry ℤ NodeId)}
    (hpop : MinHeap.pop st.heap = some (top, rest))
    (hvc : st.visited.contains top.node = false) (hte : top.node ≠ e) :
    dijLoop g e (n + 1) st = DEvent.visit top.node (st.visited ++ [top.node]) st.dist ::
      dijLoop g e n (dijRelax top.node top.priority
        { st with visited := st.visited ++ [top.node], heap := rest }
        (g.getNeighbors top.node)) := by
  rw [dijLoop, hpop]
  dsimp only
  rw [if_neg (by rw [hvc]; exact Bool.false_ne_true)]
  rw [if_neg hte]

theorem dijLoop_step_found {g : Graph} {e : NodeId} {n : ℕ} {st : DijState}
    {top : Entry ℤ NodeId} {rest : List (Entry ℤ NodeId)}
    (hpop : MinHeap.pop st.heap = some (top, rest))
    (hvc : st.visited.contains top.node = false) (hte : top.node = e) :
    dijLoop g e (n + 1) st =
      [DEvent.visit top.node (st.visited ++ [top.node]) st.dist,
        DEvent.done (reconstructPath st.parent e) (st.visited ++ [top.node])
          ((mapGet st.dist e).getD ⊤)] := by
  rw [dijLoop, hpop]
  dsimp only
  rw [if_neg (by rw [hvc]; exact Bool.false_ne_true)]
  rw [if_pos hte]

-- Fuel-indexed mirrors of the heap operations.  The originals use
-- well-founded recursion, which the kernel cannot evaluate; these structural
-- versions are provably equal and let concrete traces be settled by decide.

def bubbleUpF {P V : Type} [LinearOrder P] : ℕ → List (Entry P V) → ℕ → List (Entry P V)
  | 0, l, _ => l
  | n + 1, l, i =>
      if 0 < i then
        if optLt (priAt l i) (priAt l ((i - 1) / 2)) then
          bubbleUpF n (lswap l i ((i - 1) / 2)) ((i - 1) / 2)
        else l
      else l

theorem bubbleUp_eq_F {P V : Type} [LinearOrder P] :
    ∀ (n : ℕ) (l : List (Entry P V)) (i : ℕ), i < n → bubbleUp l i = bubbleUpF n l i := by
  intro n
  induction n with
  | zero =>
      intro l i h
      omega
  | succ n ih =>
      intro l i h
      rw [bubbleUp, bubbleUpF]
      show (if h : 0 < i then
          (if optLt (priAt l i) (priAt l ((i - 1) / 2)) = true then
            bubbleUp (lswap l i ((i - 1) / 2)) ((i - 1) / 2) else l)
        else l) = _
      by_cases h0 : 0 < i
      · rw [dif_pos h0, if_pos h0]
        by_cases hc : optLt (priAt l i) (priAt l ((i - 1) / 2)) = true
        · rw [if_pos hc, if_pos hc]
          exact ih _ _ (by omega)
        · rw [if_neg hc, if_neg hc]
      · rw [dif_neg h0, if_neg h0]

def sinkDownF {P V : Type} [LinearOrder P] : ℕ → List (Entry P V) → ℕ → List (Entry P V)
  | 0, l, _ => l
  | n + 1, l, i =>
      if sinkCandidate l i ≠ i then
        sinkDownF n (lswap l i (sinkCandidate l i)) (sinkCandidate l i)
      else l

theorem sinkDown_eq_F {P V : Type} [LinearOrder P] :
    ∀ (n : ℕ) (l : List (Entry P V)) (i : ℕ), l.length - i ≤ n →
      sinkDown l i = sinkDownF n l i := by
  intro n
  induction n with
  | zero =>
      intro l i h
      have hc : sinkCandidate l i = i := by
        unfold sinkCandidate
        dsimp only
        rw [if_neg (fun hcon => absurd hcon.1 (by omega)),
          if_neg (fun hcon => absurd hcon.1 (by omega))]
      rw [sinkDown, sinkDownF]
      show (if h : sinkCandidate l i ≠ i then
        sinkDown (lswap l i (sinkCandidate l i)) (sinkCandidate l i) else l) = l
      rw [dif_neg (not_ne_iff.mpr hc)]
  | succ n ih =>
      intro l i h
      rw [sinkDown, sinkDownF]
      show (if h : sinkCandidate l i ≠ i then
          sinkDown (lswap l i (sinkCandidate l i)) (sinkCandidate l i) else l) = _
      by_cases hne : sinkCandidate l i ≠ i
      · rw [dif_pos hne, if_pos hne]
        refine ih _ _ ?_
        rw [lswap_length]
        have := (sinkCandidate_ne_spec hne).2.1
        omega
      · rw [dif_neg hne, if_neg hne]

def pushF {P V : Type} [LinearOrder P] (data : List (Entry P V)) (item : Entry P V) :
    List (Entry P V) :=
  bubbleUpF (data.length + 1) (data ++ [item]) data.length

theorem push_eq_F {P V : Type} [LinearOrder P] (data : List (Entry P V)) (item : Entry P V) :
    MinHeap.push data item = pushF data item := by
  unfold MinHeap.push pushF
  exact bubbleUp_eq_F _ _ _ (by omega)

def popF {P V : Type} [LinearOrder P] (data : List (Entry P V)) :
    Option (Entry P V × List (Entry P V)) :=
  match data with
  | [] => none
  | [a] => some (a, [])
  | a :: b :: t =>
      some (a, sinkDownF (((a :: b :: t).dropLast).set 0
          ((b :: t).getLast (List.cons_ne_nil _ _))).length
        (((a :: b :: t).dropLast).set 0 ((b :: t).getLast (List.cons_ne_nil _ _))) 0)

theorem pop_eq_F {P V : Type} [LinearOrder P] (data : List (Entry P V)) :
    MinHeap.pop data = popF data := by
  cases data with
  | nil => rfl
  | cons a t =>
  cases t with
  | nil => rfl
  | cons b t2 =>
      show some (a, sinkDown (((a :: b :: t2).dropLast).set 0
          ((b :: t2).getLast (List.cons_ne_nil _ _))) 0) = _
      rw [sinkDown_eq_F ((((a :: b :: t2).dropLast).set 0
          ((b :: t2).getLast (List.cons_ne_nil _ _))).length) _ 0 (by omega)]
      rfl

def dijRelaxF (current : NodeId) (currentDist : ℤ) (st : DijState) (ns : List Adj) :
    DijState :=
  ns.foldl
    (fun st a =>
      if st.visited.contains a.node then st
      else
        let newDist := currentDist + a.weight
        match mapGet st.dist a.node with
        | none => st
        | some d =>
          if (newDist : WithTop ℤ) < d then
            { st with
                dist := mapSet st.dist a.node (newDist : WithTop ℤ)
                parent := mapSet st.parent a.node (some current)
                heap := pushF st.heap ⟨newDist, a.node⟩ }
          else st)
    st

theorem dijRelax_eq_F (c : NodeId) (cd : ℤ) (st : DijState) (ns : List Adj) :
    dijRelax c cd st ns = dijRelaxF c cd st ns := by
  unfold dijRelax dijRelaxF
  simp only [push_eq_F]

def dijLoopF (g : Graph) (endId : NodeId) : ℕ → DijState → List DEvent
  | 0, _ => []
  | fuel + 1, st =>
    match popF st.heap with
    | none => [.done [] st.visited ⊤]
    | some (top, rest) =>
        if st.visited.contains top.node then
          dijLoopF g endId fuel { st with heap := rest }
        else
          let visited := st.visited ++ [top.node]
          let st1 := { st with visited := visited, heap := rest }
          let ev := DEvent.visit top.node visited st1.dist
          if top.node = endId then
            [ev, .done (reconstructPath st.parent endId) visited
              ((mapGet st.dist endId).getD ⊤)]
          else
            ev :: dijLoopF g endId fuel
              (dijRelaxF top.node top.priority st1 (g.getNeighbors top.node))

theorem dijLoop_eq_F (g : Graph) (e : NodeId) :
    ∀ (fuel : ℕ) (st : DijState), dijLoop g e fuel st = dijLoopF g e fuel st := by
  intro fuel
  induction fuel with
  | zero => intro st; rfl
  | succ n ih =>
      intro st
      rw [dijLoop, dijLoopF, pop_eq_F]
      cases hp : popF st.heap with
      | none => rfl
      | some pr =>
          obtain ⟨top, rest⟩ := pr
          dsimp only
          by_cases hv : st.visited.contains top.node = true
          · rw [if_pos hv, if_pos hv]
            exact ih _
          · rw [if_neg hv, if_neg hv]
            by_cases he : top.node = e
            · rw [if_pos he, if_pos he]
            · rw [if_neg he, if_neg he]
              rw [dijRelax_eq_F, ih]

/-- The example graph of the spec: A(0,0), B(10,0), C(0,10), edges A-B weight
10, A-C weight 10, B-C weight 5. -/
def gEx : Graph :=
  ⟨[("A", ⟨"A", 0, 0, "", ""⟩), ("B", ⟨"B", 10, 0, "", ""⟩), ("C", ⟨"C", 0, 10, "", ""⟩)],
    [("A", [⟨"B", 10⟩, ⟨"C", 10⟩]), ("B", [⟨"A", 10⟩, ⟨"C", 5⟩]),
      ("C", [⟨"A", 10⟩, ⟨"B", 5⟩])]⟩

set_option maxHeartbeats 4000000 in
/-- The full dijkstra trace on the example graph: A and B are settled first,
then C is reached with total distance 10 over the direct edge. -/
theorem dijkstra_gEx : dijkstra gEx "A" "C" =
    [DEvent.visit "A" ["A"] [("A", ((0 : ℤ) : WithTop ℤ)), ("B", ⊤), ("C", ⊤)],
      DEvent.visit "B" ["A", "B"] [("A", ((0 : ℤ) : WithTop ℤ)),
        ("B", ((10 : ℤ) : WithTop ℤ)), ("C", ((10 : ℤ) : WithTop ℤ))],
      DEvent.visit "C" ["A", "B", "C"] [("A", ((0 : ℤ) : WithTop ℤ)),
        ("B", ((10 : ℤ) : WithTop ℤ)), ("C", ((10 : ℤ) : WithTop ℤ))],
      DEvent.done ["A", "C"] ["A", "B", "C"] ((10 : ℤ) : WithTop ℤ)] := by
  unfold dijkstra
  rw [dijLoop_eq_F, push_eq_F]
  decide

theorem gEx_neighbors_other (u : NodeId) (h1 : u ≠ "A") (h2 : u ≠ "B") (h3 : u ≠ "C") :
    gEx.getNeighbors u = [] := by
  unfold Graph.getNeighbors gEx
  simp only [mapGet]
  rw [if_neg (fun hh => h1 hh.symm), if_neg (fun hh => h2 hh.symm),
    if_neg (fun hh => h3 hh.symm)]
  rfl

theorem gEx_wf : WellFormed gEx := by
  intro u a ha
  by_cases h1 : u = "A"
  · subst h1
    rw [show gEx.getNeighbors "A" = [⟨"B", 10⟩, ⟨"C", 10⟩] from rfl] at ha
    fin_cases ha <;> decide
  · by_cases h2 : u = "B"
    · subst h2
      rw [show gEx.getNeighbors "B" = [⟨"A", 10⟩, ⟨"C", 5⟩] from rfl] at ha
      fin_cases ha <;> decide
    · by_cases h3 : u = "C"
      · subst h3
        rw [show gEx.getNeighbors "C" = [⟨"A", 10⟩, ⟨"B", 5⟩] from rfl] at ha
        fin_cases ha <;> decide
      · rw [gEx_neighbors_other u h1 h2 h3] at ha
        exact absurd ha (List.not_mem_nil a)

theorem gEx_nonneg : NonnegWeights gEx := by
  intro u a ha
  by_cases h1 : u = "A"
  · subst h1
    rw [show gEx.getNeighbors "A" = [⟨"B", 10⟩, ⟨"C", 10⟩] from rfl] at ha
    fin_cases ha <;> decide
  · by_cases h2 : u = "B"
    · subst h2
      rw [show gEx.getNeighbors "B" = [⟨"A", 10⟩, ⟨"C", 5⟩] from rfl] at ha
      fin_cases ha <;> decide
    · by_cases h3 : u = "C"
      · subst h3
        rw [show gEx.getNeighbors "C" = [⟨"A", 10⟩, ⟨"B", 5⟩] from rfl] at ha
        fin_cases ha <;> decide
      · rw [gEx_neighbors_other u h1 h2 h3] at ha
        exact absurd ha (List.not_mem_nil a)

theorem gEx_id : IdCoherent gEx := by
  intro p hp
  fin_cases hp <;> rfl

theorem gEx_reach : Reaches gEx "A" "C" :=
  ⟨0 + 10, 0 + 1, CostWalk.snoc CostWalk.refl (by decide)⟩

/-- C1: dijkstra returns a globally shortest weighted path: on every
id-coherent well-formed graph with non-negative integer weights and every
start/end pair with the end reachable, the final Done event's totalDistance is
the minimum over all walks of the sum of edge weights; in particular, on the
3-node example graph A(0,0), B(10,0), C(0,10) with edges A-B weight 10,
A-C weight 10, B-C weight 5, dijkstra from A to C reports
totalDistance = 10 and path [A, C]. -/
theorem dijkstra_shortest_path {g : Graph} {s e : NodeId}
    (hwf : WellFormed g) (hid : IdCoherent g) (hnn : NonnegWeights g)
    (hreach : Reaches g s e) :
    (∃ p vis c, (dijkstra g s e).getLast? = some (.done p vis ((c : ℤ) : WithTop ℤ)) ∧
      (∃ k, CostWalk g s e c k) ∧ (∀ c2 k2, CostWalk g s e c2 k2 → c ≤ c2)) ∧
    (dijkstra gEx "A" "C").getLast? =
      some (.done ["A", "C"] ["A", "B", "C"] ((10 : ℤ) : WithTop ℤ)) := by
  refine ⟨dijkstra_minimal hwf hid hnn hreach, ?_⟩
  rw [dijkstra_gEx]
  rfl

theorem dijkstra_shortest_path_witness :
    WellFormed gEx ∧ IdCoherent gEx ∧ NonnegWeights gEx ∧ Reaches gEx "A" "C" ∧
      ((∃ p vis c, (dijkstra gEx "A" "C").getLast? =
          some (.done p vis ((c : ℤ) : WithTop ℤ)) ∧
        (∃ k, CostWalk gEx "A" "C" c k) ∧
        (∀ c2 k2, CostWalk gEx "A" "C" c2 k2 → c ≤ c2)) ∧
      (dijkstra gEx "A" "C").getLast? =
        some (.done ["A", "C"] ["A", "B", "C"] ((10 : ℤ) : WithTop ℤ))) :=
  ⟨gEx_wf, gEx_id, gEx_nonneg, gEx_reach,
    dijkstra_shortest_path gEx_wf gEx_id gEx_nonneg gEx_reach⟩

end Pathfinder
